import Mathlib

/-!
Verification development for the CSV-repair engine of the NYC-Flash-Floods
repository (src/data/fix_csv_newlines.py).

Python strings are modelled as lists of characters. Each Python helper used
by the source (str.replace, str.split, str.strip, str.rfind, the two regular
expressions, the csv module reader and writer in their default dialects) is
embedded as an executable Lean function whose semantics were checked against
CPython 3.11. The source functions parse_malformed_csv, parse_single_record,
parse_single_line_record, parse_csv_fields and clean_narrative are then
translated line by line.
-/

namespace StormCsv

/-- A Python string: a list of characters. -/
abbrev Str := List Char

/-- Python substring containment, the `old in s` test. -/
def containsSub (s pat : Str) : Bool :=
  pat.isPrefixOf s ||
    match s with
    | [] => false
    | _ :: rest => containsSub rest pat

/-- The scanning loop of Python str.replace, structurally recursive on a
fuel argument so that the kernel can evaluate it; one character or one
occurrence of old is consumed per step, so fuel equal to the length of the
string always suffices. -/
def pyReplaceF (old new : Str) : Nat → Str → Str
  | _, [] => []
  | 0, c :: rest => c :: rest
  | fuel + 1, c :: rest =>
    if old = [] then c :: rest
    else if old.isPrefixOf (c :: rest) then
      new ++ pyReplaceF old new fuel ((c :: rest).drop old.length)
    else
      c :: pyReplaceF old new fuel rest

/-- Python str.replace old new: replace every non-overlapping occurrence of
old by new, scanning left to right. When old is empty the input is returned
unchanged; every call site below uses a non-empty old. -/
def pyReplace (old new : Str) (s : Str) : Str :=
  pyReplaceF old new s.length s

/-- Strong induction on the length of a character list. -/
theorem str_strong_induction (motive : Str → Prop)
    (h : ∀ s : Str, (∀ t : Str, t.length < s.length → motive t) → motive s) :
    ∀ s, motive s := by
  have hn : ∀ (n : Nat) (s : Str), s.length ≤ n → motive s := by
    intro n
    induction n with
    | zero =>
      intro s hs
      refine h s ?_
      intro t ht
      omega
    | succ n ih =>
      intro s hs
      refine h s ?_
      intro t ht
      exact ih t (by omega)
  exact fun s => hn s.length s (Nat.le_refl _)

theorem isPrefixOf_length_le (l1 l2 : Str) (h : l1.isPrefixOf l2 = true) :
    l1.length ≤ l2.length := by
  have hp : l1 <+: l2 := by simpa using h
  exact hp.length_le

theorem pyReplaceF_fuel_irrelevant (old new : Str) : ∀ (f1 f2 : Nat) (s : Str),
    s.length ≤ f1 → s.length ≤ f2 → pyReplaceF old new f1 s = pyReplaceF old new f2 s := by
  intro f1
  induction f1 with
  | zero =>
    intro f2 s h1 _
    have : s = [] := List.eq_nil_of_length_eq_zero (by omega)
    subst this
    cases f2 <;> rfl
  | succ f1 ih =>
    intro f2 s h1 h2
    cases s with
    | nil => cases f2 <;> rfl
    | cons c rest =>
      cases f2 with
      | zero => simp at h2
      | succ f2 =>
        rw [pyReplaceF, pyReplaceF]
        by_cases hold : old = []
        · rw [if_pos hold, if_pos hold]
        · rw [if_neg hold, if_neg hold]
          by_cases hpre : old.isPrefixOf (c :: rest) = true
          · rw [if_pos hpre, if_pos hpre]
            have hlen := isPrefixOf_length_le old (c :: rest) hpre
            have holdpos : 0 < old.length := List.length_pos.mpr hold
            have hd : ((c :: rest).drop old.length).length ≤ f1 := by
              simp only [List.length_drop, List.length_cons] at *
              omega
            have hd2 : ((c :: rest).drop old.length).length ≤ f2 := by
              simp only [List.length_drop, List.length_cons] at *
              omega
            rw [ih f2 _ hd hd2]
          · rw [if_neg hpre, if_neg hpre]
            have hr1 : rest.length ≤ f1 := by
              simp only [List.length_cons] at h1
              omega
            have hr2 : rest.length ≤ f2 := by
              simp only [List.length_cons] at h2
              omega
            rw [ih f2 rest hr1 hr2]

theorem pyReplace_nil (old new : Str) : pyReplace old new [] = [] := rfl

theorem pyReplace_empty (new : Str) (s : Str) : pyReplace [] new s = s := by
  cases s <;> rfl

theorem pyReplace_cons_pos (old new : Str) (c : Char) (rest : Str) (hold : ¬ old = [])
    (hpre : old.isPrefixOf (c :: rest) = true) :
    pyReplace old new (c :: rest) = new ++ pyReplace old new ((c :: rest).drop old.length) := by
  rw [pyReplace, pyReplace]
  rw [show (c :: rest).length = rest.length + 1 from rfl, pyReplaceF]
  rw [if_neg hold, if_pos hpre]
  have hlen := isPrefixOf_length_le old (c :: rest) hpre
  have holdpos : 0 < old.length := List.length_pos.mpr hold
  rw [pyReplaceF_fuel_irrelevant old new rest.length ((c :: rest).drop old.length).length
    ((c :: rest).drop old.length) ?_ (Nat.le_refl _)]
  simp only [List.length_drop, List.length_cons] at *
  omega

theorem pyReplace_cons_neg (old new : Str) (c : Char) (rest : Str) (hold : ¬ old = [])
    (hpre : ¬ old.isPrefixOf (c :: rest) = true) :
    pyReplace old new (c :: rest) = c :: pyReplace old new rest := by
  rw [pyReplace, pyReplace]
  rw [show (c :: rest).length = rest.length + 1 from rfl, pyReplaceF]
  rw [if_neg hold, if_neg hpre]

theorem pyReplace_length_le (old new : Str) (h : new.length ≤ old.length) (s : Str) :
    (pyReplace old new s).length ≤ s.length := by
  refine str_strong_induction (fun s => (pyReplace old new s).length ≤ s.length) ?_ s
  intro s ih
  by_cases hold : old = []
  · subst hold
    rw [pyReplace_empty]
  · cases s with
    | nil => rw [pyReplace_nil]
    | cons c rest =>
      by_cases hpre : old.isPrefixOf (c :: rest) = true
      · rw [pyReplace_cons_pos old new c rest hold hpre]
        have hlen := isPrefixOf_length_le old (c :: rest) hpre
        have holdpos : 0 < old.length := List.length_pos.mpr hold
        have hihd := ih ((c :: rest).drop old.length)
          (by simp only [List.length_drop, List.length_cons] at *; omega)
        simp only [List.length_append, List.length_drop, List.length_cons] at *
        omega
      · rw [pyReplace_cons_neg old new c rest hold hpre]
        have hihr := ih rest (by simp)
        simp only [List.length_cons]
        omega

theorem pyReplace_length_lt (old new : Str) (h : new.length < old.length) (s : Str)
    (hc : containsSub s old = true) : (pyReplace old new s).length < s.length := by
  have hold : ¬ old = [] := by
    intro he
    subst he
    simp at h
  refine str_strong_induction
    (fun s => containsSub s old = true → (pyReplace old new s).length < s.length) ?_ s hc
  intro s ih hcc
  cases s with
  | nil =>
    rw [containsSub] at hcc
    have : old = [] := by
      cases old with
      | nil => rfl
      | cons a t => simp [List.isPrefixOf] at hcc
    exact absurd this hold
  | cons c rest =>
    by_cases hpre : old.isPrefixOf (c :: rest) = true
    · rw [pyReplace_cons_pos old new c rest hold hpre]
      have hlen := isPrefixOf_length_le old (c :: rest) hpre
      have holdpos : 0 < old.length := List.length_pos.mpr hold
      have hle := pyReplace_length_le old new (Nat.le_of_lt h) ((c :: rest).drop old.length)
      simp only [List.length_append, List.length_drop, List.length_cons] at *
      omega
    · rw [pyReplace_cons_neg old new c rest hold hpre]
      rw [containsSub] at hcc
      have hc2 : containsSub rest old = true := by
        cases hor : old.isPrefixOf (c :: rest) with
        | true => exact absurd hor hpre
        | false => simpa [hor] using hcc
      have := ih rest (by simp) hc2
      simp only [List.length_cons]
      omega

/-- Python str.split sep for a one-character separator: split on every
occurrence, keeping empty pieces, never returning an empty list. -/
def splitOnChar (sep : Char) : Str → List Str
  | [] => [[]]
  | c :: rest =>
    let r := splitOnChar sep rest
    if c = sep then [] :: r else (c :: r.headD []) :: r.tail

theorem splitOnChar_cons (sep c : Char) (rest : Str) :
    splitOnChar sep (c :: rest) =
      if c = sep then [] :: splitOnChar sep rest
      else (c :: (splitOnChar sep rest).headD []) :: (splitOnChar sep rest).tail := rfl

/-- Python sep.join pieces for the record format: pieces joined by a single
newline character. -/
def joinNL (pieces : List Str) : Str := List.intercalate ['\n'] pieces

/-- Python str.strip cs from the left only. -/
def dropWhileMem (cs : List Char) (s : Str) : Str :=
  s.dropWhile (fun c => cs.contains c)

/-- Python str.strip cs: remove every leading and trailing character that
belongs to cs. -/
def pyStrip (cs : List Char) (s : Str) : Str :=
  (dropWhileMem cs ((dropWhileMem cs s).reverse)).reverse

/-- Value of a decimal digit character. -/
def digitToNat (c : Char) : Nat := c.toNat - 48

/-- Python int on a string of decimal digits. -/
def natOfDigits (ds : Str) : Nat := ds.foldl (fun a c => 10 * a + digitToNat c) 0

/-- The search for the regular expression pattern quote-or-comma followed by
digits at end of line, used both by the boundary scanner and by the
multi-line record parser. The leftmost match of this end-anchored pattern
captures exactly the maximal digit suffix of the line, provided the character
immediately before that suffix is a comma or a double quote; a line that is
all digits, ends in a non-digit, or whose digit suffix follows any other
character has no match. Digits are modelled as ASCII digits, adequate for
this text data. Returns the captured digit group. -/
def trailingDigits (line : Str) : Option Str :=
  let rds := line.reverse.takeWhile Char.isDigit
  let pre := line.reverse.dropWhile Char.isDigit
  if rds = [] then none
  else if pre.head? = some ',' ∨ pre.head? = some '\"' then some rds.reverse
  else none

/-- The integer value of the captured trailing digit group, the quantity the
boundary scanner compares against its expectation. -/
def trailingNum (line : Str) : Option Nat :=
  (trailingDigits line).map natOfDigits

/-- Whether pat occurs in s starting at index i. -/
def occursAt (s pat : Str) (i : Nat) : Bool := pat.isPrefixOf (s.drop i)

/-- Python str.rfind pat: the largest index at which pat occurs in s, for a
non-empty pat; none when pat does not occur. -/
def rfindList (s pat : Str) : Option Nat :=
  ((List.range (s.length + 1)).filter (fun i => occursAt s pat i)).getLast?

/-! ## The csv module: reader and writer, default dialect -/

/-- Parser states of the CPython _csv reader. -/
inductive CsvState where
  | startField
  | inField
  | inQuoted
  | quoteInQuoted
deriving DecidableEq

/-- One row read by csv.reader(io.StringIO(line)) in the default dialect
(delimiter comma, quotechar double quote, doublequote escaping, strict off),
for a line containing no newline characters, as every call site here
guarantees. At end of input every state saves the pending field: with strict
off, CPython accepts an unterminated quoted field and emits its content. -/
def csvGo : Str → CsvState → List Str → Str → List Str
  | [], _, fields, cur => fields ++ [cur]
  | c :: rest, .startField, fields, cur =>
    if c = '\"' then csvGo rest .inQuoted fields cur
    else if c = ',' then csvGo rest .startField (fields ++ [cur]) []
    else csvGo rest .inField fields (cur ++ [c])
  | c :: rest, .inField, fields, cur =>
    if c = ',' then csvGo rest .startField (fields ++ [cur]) []
    else csvGo rest .inField fields (cur ++ [c])
  | c :: rest, .inQuoted, fields, cur =>
    if c = '\"' then csvGo rest .quoteInQuoted fields cur
    else csvGo rest .inQuoted fields (cur ++ [c])
  | c :: rest, .quoteInQuoted, fields, cur =>
    if c = '\"' then csvGo rest .inQuoted fields (cur ++ ['\"'])
    else if c = ',' then csvGo rest .startField (fields ++ [cur]) []
    else csvGo rest .inField fields (cur ++ [c])

/-- next(csv.reader(io.StringIO(line))): none exactly on empty input, where
the reader yields no row at all and next raises StopIteration; any non-empty
newline-free line yields a row of fields. -/
def csvParseLine (line : Str) : Option (List Str) :=
  if line = [] then none else some (csvGo line .startField [] [])

/-- Whether csv.writer in the default QUOTE_MINIMAL dialect must quote the
value: it contains the delimiter, the quote character, or a character of the
line terminator. -/
def needsQuoting (v : Str) : Bool :=
  v.any (fun c => c = ',' || c = '\"' || c = '\n' || c = '\r')

/-- Double every quote character, the doublequote escaping of csv.writer. -/
def escapeQuotes (v : Str) : Str :=
  v.foldr (fun c acc => if c = '\"' then '\"' :: '\"' :: acc else c :: acc) []

/-- One field as serialized by csv.writer with QUOTE_MINIMAL. -/
def csvQuoteMinimal (v : Str) : Str :=
  if needsQuoting v then '\"' :: (escapeQuotes v ++ ['\"']) else v

/-- One row as serialized by csv.writer: quoted fields joined by commas and
terminated by the default lineterminator, carriage return plus newline. -/
def writeRow (vs : List Str) : Str :=
  List.intercalate [','] (vs.map csvQuoteMinimal) ++ ['\r', '\n']

/-! ## Python dict with string keys, insertion ordered -/

/-- A row dict: association list in insertion order. Assigning an existing
key keeps its position and replaces its value, as a Python dict does. -/
abbrev Record := List (Str × Str)

/-- Python dict assignment d[k] = v: an existing key keeps its position and
gets the new value, a new key is appended. Keys are unique in every dict
built here, so updating the first occurrence is exact. -/
def dictSet (d : Record) (k v : Str) : Record :=
  match d with
  | [] => [(k, v)]
  | p :: rest => if p.1 == k then (k, v) :: rest else p :: dictSet rest k v

/-- Python dict lookup d[k], none when the key is absent. -/
def dictGet (d : Record) (k : Str) : Option Str :=
  (d.find? (fun p => p.1 == k)).map (fun p => p.2)

/-- Python dict(zip(ks, vs)): insert pairwise, truncating to the shorter
list; a repeated key keeps its first position and takes its last value. -/
def dictZip (ks vs : List Str) : Record :=
  (List.zip ks vs).foldl (fun d p => dictSet d p.1 p.2) []

/-! ## clean_narrative -/

theorem containsSub_nil_cons (a : Char) (t : Str) : containsSub [] (a :: t) = false := by
  rw [containsSub]
  simp [List.isPrefixOf]

/-- The while loop of clean_narrative collapsing runs of newlines, with a
fuel argument so that the kernel can evaluate it; every iteration removes at
least one character, so fuel equal to the string length always suffices. -/
def collapseBlankLinesF : Nat → Str → Str
  | 0, s => s
  | fuel + 1, s =>
    if containsSub s ['\n', '\n'] then
      collapseBlankLinesF fuel (pyReplace ['\n', '\n'] ['\n'] s)
    else s

/-- The while loop of clean_narrative collapsing runs of newlines: replace
double newline by single newline until no double newline remains. -/
def collapseBlankLines (s : Str) : Str := collapseBlankLinesF s.length s

/-- The while loop of clean_narrative collapsing runs of spaces, with a fuel
argument so that the kernel can evaluate it. -/
def collapseSpacesF : Nat → Str → Str
  | 0, s => s
  | fuel + 1, s =>
    if containsSub s [' ', ' '] then
      collapseSpacesF fuel (pyReplace [' ', ' '] [' '] s)
    else s

/-- The while loop of clean_narrative collapsing runs of spaces: replace
double space by single space until no double space remains. -/
def collapseSpaces (s : Str) : Str := collapseSpacesF s.length s

theorem collapseBlankLinesF_fuel_irrelevant : ∀ (f1 f2 : Nat) (s : Str),
    s.length ≤ f1 → s.length ≤ f2 → collapseBlankLinesF f1 s = collapseBlankLinesF f2 s := by
  intro f1
  induction f1 with
  | zero =>
    intro f2 s h1 _
    have hs : s = [] := List.eq_nil_of_length_eq_zero (by omega)
    subst hs
    cases f2 with
    | zero => rfl
    | succ f2 =>
      simp [collapseBlankLinesF, containsSub_nil_cons]
  | succ f1 ih =>
    intro f2 s h1 h2
    by_cases hc : containsSub s ['\n', '\n'] = true
    · have hne : s ≠ [] := by
        intro he
        subst he
        rw [containsSub_nil_cons] at hc
        simp at hc
      have hlt := pyReplace_length_lt ['\n', '\n'] ['\n'] (by simp) s hc
      cases f2 with
      | zero =>
        have : s.length = 0 := by omega
        exact absurd (List.eq_nil_of_length_eq_zero this) hne
      | succ f2 =>
        simp only [collapseBlankLinesF]
        rw [if_pos hc, if_pos hc]
        exact ih f2 _ (by omega) (by omega)
    · cases f2 with
      | zero =>
        have hs : s = [] := List.eq_nil_of_length_eq_zero (by omega)
        subst hs
        simp only [collapseBlankLinesF]
        rw [if_neg hc]
      | succ f2 =>
        simp only [collapseBlankLinesF]
        rw [if_neg hc, if_neg hc]

theorem collapseSpacesF_fuel_irrelevant : ∀ (f1 f2 : Nat) (s : Str),
    s.length ≤ f1 → s.length ≤ f2 → collapseSpacesF f1 s = collapseSpacesF f2 s := by
  intro f1
  induction f1 with
  | zero =>
    intro f2 s h1 _
    have hs : s = [] := List.eq_nil_of_length_eq_zero (by omega)
    subst hs
    cases f2 with
    | zero => rfl
    | succ f2 =>
      simp [collapseSpacesF, containsSub_nil_cons]
  | succ f1 ih =>
    intro f2 s h1 h2
    by_cases hc : containsSub s [' ', ' '] = true
    · have hne : s ≠ [] := by
        intro he
        subst he
        rw [containsSub_nil_cons] at hc
        simp at hc
      have hlt := pyReplace_length_lt [' ', ' '] [' '] (by simp) s hc
      cases f2 with
      | zero =>
        have : s.length = 0 := by omega
        exact absurd (List.eq_nil_of_length_eq_zero this) hne
      | succ f2 =>
        simp only [collapseSpacesF]
        rw [if_pos hc, if_pos hc]
        exact ih f2 _ (by omega) (by omega)
    · cases f2 with
      | zero =>
        have hs : s = [] := List.eq_nil_of_length_eq_zero (by omega)
        subst hs
        simp only [collapseSpacesF]
        rw [if_neg hc]
      | succ f2 =>
        simp only [collapseSpacesF]
        rw [if_neg hc, if_neg hc]

theorem collapseBlankLines_eq (s : Str) :
    collapseBlankLines s =
      if containsSub s ['\n', '\n'] then
        collapseBlankLines (pyReplace ['\n', '\n'] ['\n'] s)
      else s := by
  by_cases hc : containsSub s ['\n', '\n'] = true
  · rw [if_pos hc]
    have hne : s ≠ [] := by
      intro he
      subst he
      rw [containsSub_nil_cons] at hc
      simp at hc
    have hpos : 0 < s.length := List.length_pos.mpr hne
    have hlt := pyReplace_length_lt ['\n', '\n'] ['\n'] (by simp) s hc
    rw [collapseBlankLines, collapseBlankLines]
    rcases Nat.exists_eq_add_of_lt hpos with ⟨l, hl⟩
    rw [show s.length = l + 1 by omega]
    rw [collapseBlankLinesF, if_pos hc]
    exact collapseBlankLinesF_fuel_irrelevant l _ _ (by omega) (Nat.le_refl _)
  · rw [if_neg hc, collapseBlankLines]
    cases hs : s with
    | nil => rfl
    | cons c rest =>
      rw [← hs]
      have hpos : 0 < s.length := by rw [hs]; simp
      rcases Nat.exists_eq_add_of_lt hpos with ⟨l, hl⟩
      rw [show s.length = l + 1 by omega]
      rw [collapseBlankLinesF, if_neg hc]

theorem collapseSpaces_eq (s : Str) :
    collapseSpaces s =
      if containsSub s [' ', ' '] then
        collapseSpaces (pyReplace [' ', ' '] [' '] s)
      else s := by
  by_cases hc : containsSub s [' ', ' '] = true
  · rw [if_pos hc]
    have hne : s ≠ [] := by
      intro he
      subst he
      rw [containsSub_nil_cons] at hc
      simp at hc
    have hpos : 0 < s.length := List.length_pos.mpr hne
    have hlt := pyReplace_length_lt [' ', ' '] [' '] (by simp) s hc
    rw [collapseSpaces, collapseSpaces]
    rcases Nat.exists_eq_add_of_lt hpos with ⟨l, hl⟩
    rw [show s.length = l + 1 by omega]
    rw [collapseSpacesF, if_pos hc]
    exact collapseSpacesF_fuel_irrelevant l _ _ (by omega) (Nat.le_refl _)
  · rw [if_neg hc, collapseSpaces]
    cases hs : s with
    | nil => rfl
    | cons c rest =>
      rw [← hs]
      have hpos : 0 < s.length := by rw [hs]; simp
      rcases Nat.exists_eq_add_of_lt hpos with ⟨l, hl⟩
      rw [show s.length = l + 1 by omega]
      rw [collapseSpacesF, if_neg hc]

/-- clean_narrative from the source: normalize line endings, collapse blank
lines, replace newlines by the space-pipe-space separator, collapse runs of
spaces, strip spaces and pipes from the ends, then strip quotes from the
ends. Empty text stays empty. -/
def clean_narrative (text : Str) : Str :=
  if text = [] then []
  else
    let t1 := pyReplace ['\r', '\n'] ['\n'] text
    let t2 := pyReplace ['\r'] ['\n'] t1
    let t3 := collapseBlankLines t2
    let t4 := pyReplace ['\n'] [' ', '|', ' '] t3
    let t5 := collapseSpaces t4
    let t6 := pyStrip [' ', '|'] t5
    pyStrip ['\"'] t6

/-! ## The two regular expression substitutions of parse_single_record -/

/-- The whitespace class of Python regular expressions, ASCII part. -/
def isPySpace (c : Char) : Bool :=
  c = ' ' || c = '\t' || c = '\n' || c = '\r' || c = '\x0b' || c = '\x0c'

/-- The substitution removing the leading empty-narrative residue: the
pattern anchored at the start matching two quotes, a comma, an optional
quote, then any whitespace, replaced by nothing. -/
def stripLeadingEmptyMarker (s : Str) : Str :=
  match s with
  | '\"' :: '\"' :: ',' :: rest =>
    (match rest with
     | '\"' :: r => r
     | _ => rest).dropWhile isPySpace
  | _ => s

/-- Whether a string is entirely matched by the end-anchored tail
quote-whitespace-comma-whitespace-digits of the first trailing substitution.
The greedy whitespace skips are exact because comma and digits are not
whitespace. -/
def quoteCommaNumSuffix (t : Str) : Bool :=
  match t with
  | '\"' :: rest =>
    match rest.dropWhile isPySpace with
    | ',' :: r2 =>
      let r3 := r2.dropWhile isPySpace
      decide (r3 ≠ []) && r3.all Char.isDigit
    | _ => false
  | _ => false

/-- Whether a string is entirely matched by the end-anchored tail
comma-whitespace-digits of the second trailing substitution. -/
def commaNumSuffix (t : Str) : Bool :=
  match t with
  | ',' :: rest =>
    let r := rest.dropWhile isPySpace
    decide (r ≠ []) && r.all Char.isDigit
  | _ => false

/-- The strict-end core of an end-anchored substitution: the leftmost
suffix that the pattern matches in full is deleted; when no suffix matches,
the string is unchanged. This alone is the dollar anchor only for strings
not ending in a newline; the full Python behavior is cutEndAnchored
below. -/
def cutLeftmostSuffix (p : Str → Bool) (s : Str) : Str :=
  if p s then []
  else
    match s with
    | [] => []
    | c :: rest => c :: cutLeftmostSuffix p rest

/-- re.sub with an end-anchored pattern, with the Python semantics of the
dollar anchor: it matches at the end of the string and also just before one
newline at the very end. Both trailing patterns of the source end in a
digit, so a match can never cover a final newline; on a string ending in a
newline the leftmost match therefore ends right before that newline, which
survives the deletion, and otherwise the match ends at the true end. -/
def cutEndAnchored (p : Str → Bool) (s : Str) : Str :=
  if s.getLast? = some '\n' then cutLeftmostSuffix p s.dropLast ++ ['\n']
  else cutLeftmostSuffix p s

/-! ## The source functions -/

/-- parse_csv_fields from the source: standard csv parsing of one line, with
a plain comma split as the fallback when the reader raises. -/
def parse_csv_fields (line : Str) : List Str :=
  match csvParseLine line with
  | some vs => vs
  | none => splitOnChar ',' line

/-- The narrative cleanup loop of parse_single_line_record for one field
name: when the field is present and non-empty, its value is passed through
clean_narrative. -/
def cleanNarrativeField (row : Record) (f : Str) : Record :=
  match dictGet row f with
  | some v => if v = [] then row else dictSet row f (clean_narrative v)
  | none => row

/-- The EVENT_NARRATIVE field name. -/
def eventNarrativeKey : Str := "EVENT_NARRATIVE".data

/-- The EPISODE_NARRATIVE field name. -/
def episodeNarrativeKey : Str := "EPISODE_NARRATIVE".data

/-- The ABSOLUTE_ROWNUMBER field name. -/
def rowNumberKey : Str := "ABSOLUTE_ROWNUMBER".data

/-- parse_single_line_record from the source: parse the line with the csv
reader, reject it unless the field count equals the schema length, build the
row dict positionally, then clean the two narrative fields. A reader failure
is caught and yields no record. -/
def parse_single_line_record (line : Str) (fieldnames : List Str) : Option Record :=
  match csvParseLine line with
  | none => none
  | some values =>
    if values.length = fieldnames.length then
      let row := dictZip fieldnames values
      let row := cleanNarrativeField row eventNarrativeKey
      let row := cleanNarrativeField row episodeNarrativeKey
      some row
    else none

/-- First marker variant tried by parse_single_record: comma, two quotes,
comma, quote. -/
def markerA : Str := [',', '\"', '\"', ',', '\"']

/-- Second marker variant tried: the first variant followed by a space. -/
def markerB : Str := [',', '\"', '\"', ',', '\"', ' ']

/-- Third marker variant tried: comma, two quotes, comma. -/
def markerC : Str := [',', '\"', '\"', ',']

/-- The marker search of parse_single_record: the rightmost occurrence of
the first variant, else of the second, else of the third. -/
def markerPos (firstLine : Str) : Option Nat :=
  match rfindList firstLine markerA with
  | some i => some i
  | none =>
    match rfindList firstLine markerB with
    | some i => some i
    | none => rfindList firstLine markerC

/-- The structured-prefix loop of parse_single_record: for every schema
field except the last three, in order, take the positional value from the
structured fields, or the empty string when the prefix came up short. -/
def buildStructured (fieldnames sfs : List Str) : Record :=
  ((fieldnames.take (fieldnames.length - 3)).enum).foldl
    (fun row p => dictSet row p.2 (sfs.getD p.1 [])) []

/-- parse_single_record from the source. A one-line record goes to the
single-line parser. A multi-line record requires the trailing row number on
its last line; the marker search on its first line then either splits off
the structured prefix and reconstructs the narrative, or, with no marker
found, the whole record with newlines turned into separators is re-parsed
as a single line. -/
def parse_single_record (raw : Str) (fieldnames : List Str) : Option Record :=
  let lines := splitOnChar '\n' raw
  if lines.length = 1 then
    parse_single_line_record raw fieldnames
  else
    let first_line := lines.headD []
    let last_line := lines.getLastD []
    match trailingDigits last_line with
    | none => none
    | some row_number =>
      match markerPos first_line with
      | none => parse_single_line_record (pyReplace ['\n'] [' ', '|', ' '] raw) fieldnames
      | some narrative_marker =>
        let structured_part := first_line.take narrative_marker
        let structured_fields := parse_csv_fields structured_part
        let narrative_start := first_line.drop (narrative_marker + 1)
        let full_narrative := (lines.drop 1).foldl (fun acc l => acc ++ '\n' :: l) narrative_start
        let n1 := stripLeadingEmptyMarker full_narrative
        let n2 := cutEndAnchored quoteCommaNumSuffix n1
        let n3 := cutEndAnchored commaNumSuffix n2
        let episode_narrative := clean_narrative n3
        let row := buildStructured fieldnames structured_fields
        let row := dictSet row eventNarrativeKey []
        let row := dictSet row episodeNarrativeKey episode_narrative
        let row := dictSet row rowNumberKey row_number
        some row

/-! ## The boundary scanner of parse_malformed_csv -/

/-- The accumulation loop of parse_malformed_csv: append each line to the
current record; when the line carries a trailing number equal to the
expectation, emit the accumulated lines joined by newlines, reset, and
increment the expectation; at end of input a non-empty accumulator is
emitted as a final record. -/
def scanGo (cur : List Str) (expected : Nat) : List Str → List Str
  | [] => if cur = [] then [] else [joinNL cur]
  | l :: rest =>
    let cur2 := cur ++ [l]
    match trailingNum l with
    | some n =>
      if n = expected then joinNL cur2 :: scanGo [] (expected + 1) rest
      else scanGo cur2 expected rest
    | none => scanGo cur2 expected rest

/-- The raw records collected by parse_malformed_csv from the lines after
the header, with the expectation starting at 1. -/
def scanLines (ls : List Str) : List Str := scanGo [] 1 ls

/-- Line-ending normalization of parse_malformed_csv: carriage return plus
newline becomes newline, then any remaining carriage return becomes
newline. -/
def normalizeContent (content : Str) : Str :=
  pyReplace ['\r'] ['\n'] (pyReplace ['\r', '\n'] ['\n'] content)

/-- parse_malformed_csv from the source, on the file content: normalize the
line endings, split into physical lines, read the comma-split header as the
schema, scan the remaining lines into raw records, and keep every raw record
that parses. An empty row dict is impossible here, so the truthiness filter
of the source keeps exactly the parsed records. -/
def parse_malformed_csv (content : Str) : List Str × List Record :=
  let lines := splitOnChar '\n' (normalizeContent content)
  let header_line := lines.headD []
  let fieldnames := splitOnChar ',' header_line
  let raw_records := scanLines (lines.drop 1)
  (fieldnames, raw_records.filterMap (fun r => parse_single_record r fieldnames))

/-! ## The writer of fix_csv -/

/-- The output file written by fix_csv through csv.DictWriter: the header
row, then one row per record with the values taken in schema order and a
missing key written as the empty string. DictWriter raises when a record
carries a key outside the schema; that fatal path is the none case. -/
def write_csv (fieldnames : List Str) (rows : List Record) : Option Str :=
  if rows.all (fun r => r.all (fun p => fieldnames.contains p.1)) then
    some (writeRow fieldnames ++
      (rows.map (fun r => writeRow (fieldnames.map (fun f => (dictGet r f).getD [])))).flatten)
  else none

/-! ## Lemmas about splitting and joining -/

theorem splitOnChar_ne_nil (sep : Char) (s : Str) : splitOnChar sep s ≠ [] := by
  cases s with
  | nil => simp [splitOnChar]
  | cons c rest =>
    rw [splitOnChar_cons]
    by_cases hc : c = sep <;> simp [hc]

theorem intercalate_singleton (sep : Char) (p : Str) :
    List.intercalate [sep] [p] = p := by
  simp [List.intercalate]

theorem intercalate_cons2 (sep : Char) (p q : Str) (qs : List Str) :
    List.intercalate [sep] (p :: q :: qs) = p ++ sep :: List.intercalate [sep] (q :: qs) := by
  simp [List.intercalate, List.intersperse]

theorem splitOnChar_sep_free (sep : Char) (s : Str) :
    ∀ p ∈ splitOnChar sep s, sep ∉ p := by
  induction s with
  | nil => simp [splitOnChar]
  | cons c rest ih =>
    rw [splitOnChar_cons]
    rcases h : splitOnChar sep rest with _ | ⟨g, gs⟩
    · exact absurd h (splitOnChar_ne_nil sep rest)
    · have ihg := ih
      rw [h] at ihg
      by_cases hc : c = sep
      · rw [if_pos hc]
        intro p hp
        simp only [List.mem_cons] at hp
        rcases hp with hp | hp | hp
        · simp [hp]
        · exact ihg p (by simp [hp])
        · exact ihg p (by simp [hp])
      · rw [if_neg hc]
        simp only [List.headD_cons, List.tail_cons]
        intro p hp
        simp only [List.mem_cons] at hp
        rcases hp with hp | hp
        · subst hp
          intro hmem
          simp only [List.mem_cons] at hmem
          rcases hmem with hmem | hmem
          · exact hc hmem.symm
          · exact ihg g (by simp) hmem
        · exact ihg p (by simp [hp])

theorem splitOnChar_of_sep_free (sep : Char) (s : Str) (h : sep ∉ s) :
    splitOnChar sep s = [s] := by
  induction s with
  | nil => simp [splitOnChar]
  | cons c rest ih =>
    simp only [List.mem_cons, not_or] at h
    rw [splitOnChar_cons, ih h.2]
    simp [show ¬ c = sep from fun hc => h.1 hc.symm]

theorem splitOnChar_append_sep (sep : Char) (p t : Str) (h : sep ∉ p) :
    splitOnChar sep (p ++ sep :: t) = p :: splitOnChar sep t := by
  induction p with
  | nil =>
    simp only [List.nil_append]
    rw [splitOnChar_cons]
    simp
  | cons c rest ih =>
    simp only [List.mem_cons, not_or] at h
    simp only [List.cons_append]
    rw [splitOnChar_cons, ih h.2]
    rcases ht : splitOnChar sep t with _ | ⟨g, gs⟩
    · exact absurd ht (splitOnChar_ne_nil sep t)
    · simp [show ¬ c = sep from fun hc => h.1 hc.symm]

theorem splitOnChar_intercalate (sep : Char) (ps : List Str) (hne : ps ≠ [])
    (hfree : ∀ p ∈ ps, sep ∉ p) :
    splitOnChar sep (List.intercalate [sep] ps) = ps := by
  induction ps with
  | nil => exact absurd rfl hne
  | cons p rest ih =>
    cases rest with
    | nil =>
      rw [intercalate_singleton]
      exact splitOnChar_of_sep_free sep p (hfree p (by simp))
    | cons q qs =>
      rw [intercalate_cons2]
      rw [splitOnChar_append_sep sep p _ (hfree p (by simp))]
      rw [ih (by simp) (fun x hx => hfree x (by simp [hx]))]

theorem splitOnChar_joinNL (ps : List Str) (hne : ps ≠ [])
    (hfree : ∀ p ∈ ps, ('\n' : Char) ∉ p) :
    splitOnChar '\n' (joinNL ps) = ps :=
  splitOnChar_intercalate '\n' ps hne hfree

/-! ## Lemmas about the boundary scanner -/

theorem scanGo_nil (cur : List Str) (e : Nat) :
    scanGo cur e [] = if cur = [] then [] else [joinNL cur] := rfl

theorem scanGo_close (cur : List Str) (e : Nat) (l : Str) (rest : List Str)
    (h : trailingNum l = some e) :
    scanGo cur e (l :: rest) = joinNL (cur ++ [l]) :: scanGo [] (e + 1) rest := by
  simp [scanGo, h]

theorem scanGo_continue_wrong (cur : List Str) (e : Nat) (l : Str) (rest : List Str)
    (n : Nat) (h : trailingNum l = some n) (hne : n ≠ e) :
    scanGo cur e (l :: rest) = scanGo (cur ++ [l]) e rest := by
  simp [scanGo, h, hne]

theorem scanGo_continue_none (cur : List Str) (e : Nat) (l : Str) (rest : List Str)
    (h : trailingNum l = none) :
    scanGo cur e (l :: rest) = scanGo (cur ++ [l]) e rest := by
  simp [scanGo, h]

theorem scanGo_conserves (ls : List Str) : ∀ (cur : List Str) (e : Nat),
    (∀ l ∈ cur, ('\n' : Char) ∉ l) → (∀ l ∈ ls, ('\n' : Char) ∉ l) →
    ((scanGo cur e ls).map (splitOnChar '\n')).flatten = cur ++ ls := by
  induction ls with
  | nil =>
    intro cur e hcur _
    rw [scanGo_nil]
    by_cases h : cur = []
    · simp [h]
    · rw [if_neg h]
      simp only [List.map_cons, List.map_nil, List.flatten_cons, List.flatten_nil,
        List.append_nil]
      rw [splitOnChar_joinNL cur h hcur]
  | cons l rest ih =>
    intro cur e hcur hls
    have hl : ('\n' : Char) ∉ l := hls l (by simp)
    have hcur2 : ∀ x ∈ cur ++ [l], ('\n' : Char) ∉ x := by
      intro x hx
      rcases List.mem_append.mp hx with hx | hx
      · exact hcur x hx
      · simp only [List.mem_singleton] at hx
        subst hx
        exact hl
    have hrest : ∀ x ∈ rest, ('\n' : Char) ∉ x := fun x hx => hls x (by simp [hx])
    rcases htn : trailingNum l with _ | n
    · rw [scanGo_continue_none cur e l rest htn, ih (cur ++ [l]) e hcur2 hrest]
      simp
    · by_cases he : n = e
      · subst he
        rw [scanGo_close cur n l rest htn]
        simp only [List.map_cons, List.flatten_cons]
        rw [splitOnChar_joinNL (cur ++ [l]) (by simp) hcur2]
        rw [ih [] (n + 1) (by simp) hrest]
        simp
      · rw [scanGo_continue_wrong cur e l rest n htn he, ih (cur ++ [l]) e hcur2 hrest]
        simp

/-! ## Characterization of the trailing-number pattern -/

theorem takeWhile_append_stop (p : Char → Bool) (xs : Str) (y : Char) (zs : Str)
    (hxs : ∀ x ∈ xs, p x = true) (hy : p y = false) :
    (xs ++ y :: zs).takeWhile p = xs ∧ (xs ++ y :: zs).dropWhile p = y :: zs := by
  induction xs with
  | nil => simp [List.takeWhile_cons, List.dropWhile_cons, hy]
  | cons x xs ih =>
    have hx : p x = true := hxs x (by simp)
    have ih2 := ih (fun a ha => hxs a (by simp [ha]))
    simp [List.takeWhile_cons, List.dropWhile_cons, hx, ih2.1, ih2.2]

theorem trailingDigits_eq_some_iff (l ds : Str) :
    trailingDigits l = some ds ↔
      ∃ pre c, l = pre ++ c :: ds ∧ (c = ',' ∨ c = '\"') ∧ ds ≠ [] ∧
        ∀ d ∈ ds, d.isDigit = true := by
  constructor
  · intro h
    simp only [trailingDigits] at h
    split_ifs at h with h1 h2
    have hds : (l.reverse.takeWhile Char.isDigit).reverse = ds := Option.some.inj h
    rcases hdw : l.reverse.dropWhile Char.isDigit with _ | ⟨c, t⟩
    · rw [hdw] at h2
      simp at h2
    · rw [hdw] at h2
      simp only [List.head?_cons, Option.some.injEq] at h2
      refine ⟨t.reverse, c, ?_, h2, ?_, ?_⟩
      · have hsplit : l.reverse = l.reverse.takeWhile Char.isDigit ++
            l.reverse.dropWhile Char.isDigit := (List.takeWhile_append_dropWhile _ _).symm
        have hl : l = (l.reverse.takeWhile Char.isDigit ++ (c :: t)).reverse := by
          rw [← hdw, ← hsplit, List.reverse_reverse]
        rw [hl, ← hds]
        simp
      · rw [← hds]
        simp [h1]
      · intro d hd
        rw [← hds] at hd
        simp only [List.mem_reverse] at hd
        exact List.mem_takeWhile_imp hd
  · rintro ⟨pre, c, rfl, hc, hne, hdig⟩
    have hcd : c.isDigit = false := by
      rcases hc with rfl | rfl <;> decide
    have hrev : (pre ++ c :: ds).reverse = ds.reverse ++ c :: pre.reverse := by
      simp
    have hstop := takeWhile_append_stop Char.isDigit ds.reverse c pre.reverse
      (fun x hx => hdig x (by simpa using hx)) hcd
    simp only [trailingDigits, hrev, hstop.1, hstop.2]
    rw [if_neg (by simpa using hne)]
    rw [if_pos (by simpa using hc)]
    simp

/-! ## Claim C10 -/

/-- C10: the boundary scanner conserves the input. Splitting each emitted
raw record back into its physical lines and concatenating, in emission
order, reconstructs exactly the sequence of non-header input lines: every
line after the header lands in exactly one span, in input order, with
nothing lost or duplicated before record-level parsing. -/
theorem claim_C10_scanner_conservation (content : Str) :
    ((scanLines ((splitOnChar '\n' (normalizeContent content)).drop 1)).map
        (splitOnChar '\n')).flatten =
      (splitOnChar '\n' (normalizeContent content)).drop 1 := by
  have h := scanGo_conserves ((splitOnChar '\n' (normalizeContent content)).drop 1) [] 1
    (by simp)
    (fun l hl => splitOnChar_sep_free '\n' (normalizeContent content) l
      (List.mem_of_mem_drop hl))
  simpa [scanLines] using h

/-! ## Claim C2 -/

/-- C2: one full characterization of the boundary scanner. A line carries a
boundary candidate exactly when it ends in a comma or quote followed by a
non-empty digit suffix, the candidate digits being that suffix. Appending a
line whose candidate value equals the expectation closes the span: the
accumulator plus the line is emitted, the accumulator resets, the
expectation increments. A candidate whose value differs from the
expectation, or no candidate at all, only extends the accumulator. At end
of input a non-empty accumulator is emitted as a final span, an empty one
is not, and the scan of the lines after the header starts with
expectation 1. -/
theorem claim_C2_boundary_scanner (cur : List Str) (e : Nat) (l : Str) (rest : List Str) :
    (∀ ds, trailingDigits l = some ds → natOfDigits ds = e →
        scanGo cur e (l :: rest) = joinNL (cur ++ [l]) :: scanGo [] (e + 1) rest) ∧
    (∀ ds, trailingDigits l = some ds → natOfDigits ds ≠ e →
        scanGo cur e (l :: rest) = scanGo (cur ++ [l]) e rest) ∧
    (trailingDigits l = none →
        scanGo cur e (l :: rest) = scanGo (cur ++ [l]) e rest) ∧
    (cur ≠ [] → scanGo cur e [] = [joinNL cur]) ∧
    (scanGo [] e [] = []) ∧
    (scanLines (l :: rest) = scanGo [] 1 (l :: rest)) ∧
    (∀ ds, trailingDigits l = some ds ↔
      ∃ pre c, l = pre ++ c :: ds ∧ (c = ',' ∨ c = '\"') ∧ ds ≠ [] ∧
        ∀ d ∈ ds, d.isDigit = true) := by
  refine ⟨?_, ?_, ?_, ?_, ?_, rfl, fun ds => trailingDigits_eq_some_iff l ds⟩
  · intro ds hds hval
    exact scanGo_close cur e l rest (by simp [trailingNum, hds, hval])
  · intro ds hds hval
    exact scanGo_continue_wrong cur e l rest (natOfDigits ds)
      (by simp [trailingNum, hds]) hval
  · intro hds
    exact scanGo_continue_none cur e l rest (by simp [trailingNum, hds])
  · intro hne
    rw [scanGo_nil, if_neg hne]
  · rfl

/-- Concrete instantiation of the C2 characterization: the line a-comma-one
closes the span at expectation 1 and merely accumulates at expectation 2,
and its boundary candidate is the digit suffix one. -/
theorem claim_C2_boundary_scanner_witness :
    scanGo [] 1 ["a,1".data] = [joinNL [["a,1".data].headD []]] ∧
    scanGo [] 2 ["a,1".data] = scanGo ["a,1".data] 2 [] ∧
    trailingDigits "a,1".data = some "1".data := by
  have h1 := claim_C2_boundary_scanner [] 1 "a,1".data []
  have h2 := claim_C2_boundary_scanner [] 2 "a,1".data []
  refine ⟨?_, ?_, ?_⟩
  · rw [h1.1 "1".data (by decide) (by decide)]
    decide
  · rw [h2.2.1 "1".data (by decide) (by decide)]
    decide
  · decide

/-! ## Lemmas about the dict model -/

theorem dictGet_nil (k : Str) : dictGet [] k = none := rfl

theorem dictGet_cons (p : Str × Str) (d : Record) (k : Str) :
    dictGet (p :: d) k = if p.1 == k then some p.2 else dictGet d k := by
  rw [dictGet, List.find?]
  by_cases h : p.1 == k
  · simp [h]
  · simp only [show (p.1 == k) = false from by simpa using h]
    simp [dictGet]

theorem dictGet_dictSet_self (d : Record) (k v : Str) :
    dictGet (dictSet d k v) k = some v := by
  induction d with
  | nil => simp [dictSet, dictGet_cons]
  | cons p rest ih =>
    rw [dictSet]
    by_cases h : p.1 == k
    · rw [if_pos h, dictGet_cons]
      simp
    · rw [if_neg h, dictGet_cons, if_neg h]
      exact ih

theorem dictGet_dictSet_ne (d : Record) (k v k2 : Str) (h : ¬ k2 = k) :
    dictGet (dictSet d k v) k2 = dictGet d k2 := by
  induction d with
  | nil =>
    rw [dictSet, dictGet_cons]
    simp [dictGet_nil, show (k == k2) = false from by simpa using fun e => h (by simpa using e.symm)]
  | cons p rest ih =>
    rw [dictSet]
    by_cases hp : p.1 == k
    · rw [if_pos hp, dictGet_cons, dictGet_cons]
      have hpk : p.1 = k := by simpa using hp
      have h1 : (k == k2) = false := by
        simp only [beq_eq_false_iff_ne, ne_eq]
        exact fun e => h e.symm
      rw [h1, show (p.1 == k2) = false from by
        simp only [beq_eq_false_iff_ne, ne_eq, hpk]
        exact fun e => h e.symm]
      simp
    · rw [if_neg hp, dictGet_cons, dictGet_cons, ih]

theorem dictSet_keys (d : Record) (k v : Str) :
    (dictSet d k v).map Prod.fst =
      if d.any (fun p => p.1 == k) then d.map Prod.fst
      else d.map Prod.fst ++ [k] := by
  induction d with
  | nil => simp [dictSet]
  | cons p rest ih =>
    rw [dictSet]
    by_cases h : p.1 == k
    · rw [if_pos h]
      have : p.1 = k := by simpa using h
      simp [this, List.any_cons, h]
    · rw [if_neg h]
      simp only [List.map_cons, List.any_cons, h, Bool.false_or, ih]
      by_cases h2 : rest.any (fun p => p.1 == k) <;> simp [h2]

theorem dictSet_fresh (d : Record) (k v : Str) (h : ∀ p ∈ d, ¬ p.1 = k) :
    dictSet d k v = d ++ [(k, v)] := by
  induction d with
  | nil => simp [dictSet]
  | cons p rest ih =>
    rw [dictSet]
    rw [if_neg (by simpa using h p (by simp))]
    rw [ih (fun q hq => h q (by simp [hq]))]
    simp

/-! ## The multi-line record path in normal form -/

theorem foldl_dictSet_fresh (kvs : List (Str × Str)) : ∀ d : Record,
    (kvs.map Prod.fst).Nodup → (∀ q ∈ d, q.1 ∉ kvs.map Prod.fst) →
    kvs.foldl (fun row q => dictSet row q.1 q.2) d = d ++ kvs := by
  induction kvs with
  | nil => simp
  | cons kv kvs ih =>
    intro d hnodup hd
    simp only [List.map_cons, List.nodup_cons] at hnodup
    rw [List.foldl_cons]
    rw [dictSet_fresh d kv.1 kv.2 (fun q hq hk => hd q hq (by simp [hk]))]
    rw [ih (d ++ [(kv.1, kv.2)]) hnodup.2 ?_]
    · simp
    · intro q hq
      rcases List.mem_append.mp hq with hq | hq
      · intro hmem
        exact hd q hq (by simp [hmem])
      · simp only [List.mem_singleton] at hq
        subst hq
        exact hnodup.1

theorem buildStructured_eq (F : List Str) (sfs : List Str)
    (hnodup : (F.take (F.length - 3)).Nodup) :
    buildStructured F sfs =
      (F.take (F.length - 3)).enum.map (fun p => (p.2, sfs.getD p.1 [])) := by
  have hkeys : (((F.take (F.length - 3)).enum.map
      (fun p => (p.2, sfs.getD p.1 []))).map Prod.fst).Nodup := by
    have hsnd : ((F.take (F.length - 3)).enum.map
        (fun p => (p.2, sfs.getD p.1 []))).map Prod.fst = F.take (F.length - 3) := by
      rw [List.map_map]
      have : (Prod.fst ∘ fun p : Nat × Str => (p.2, sfs.getD p.1 [])) = Prod.snd := by
        funext p
        rfl
      rw [this, List.enum_map_snd]
    rw [hsnd]
    exact hnodup
  have hfold := List.foldl_map (fun p : Nat × Str => (p.2, sfs.getD p.1 []))
    (fun (row : Record) q => dictSet row q.1 q.2) ((F.take (F.length - 3)).enum)
    ([] : Record)
  simp only at hfold
  rw [buildStructured, ← hfold, foldl_dictSet_fresh _ [] hkeys (by simp), List.nil_append]

theorem dictGet_of_map_enum (F0 : List Str) : ∀ (f : Nat → Str) (i : Nat)
    (hi : i < F0.length), F0.Nodup →
    dictGet (F0.enum.map (fun p => (p.2, f p.1))) (F0.get ⟨i, hi⟩) = some (f i) := by
  induction F0 with
  | nil =>
    intro f i hi
    simp at hi
  | cons x F0 ih =>
    intro f i hi hnodup
    simp only [List.nodup_cons] at hnodup
    have hmap : (x :: F0).enum.map (fun p => (p.2, f p.1)) =
        (x, f 0) :: F0.enum.map (fun p => (p.2, f (p.1 + 1))) := by
      rw [List.enum_cons']
      simp [List.map_map, Function.comp, Prod.map]
    rw [hmap]
    cases i with
    | zero =>
      rw [List.get]
      rw [dictGet_cons]
      simp
    | succ i =>
      have hi2 : i < F0.length := by
        simpa using hi
      rw [List.get]
      rw [dictGet_cons]
      have hne : (x == F0.get ⟨i, hi2⟩) = false := by
        simp only [beq_eq_false_iff_ne, ne_eq]
        intro he
        exact hnodup.1 (he ▸ List.get_mem F0 i hi2)
      rw [hne]
      simp only [Bool.false_eq_true, if_false]
      exact ih (fun j => f (j + 1)) i hi2 hnodup.2

/-- The narrative text reconstructed by the multi-line path of
parse_single_record: the first-line remainder after the marker comma,
extended by the later lines each preceded by a newline, then the leading
marker residue and the trailing row-number artifacts removed, then
clean_narrative. -/
def multiEpisode (lines : List Str) (m : Nat) : Str :=
  clean_narrative (cutEndAnchored commaNumSuffix
    (cutEndAnchored quoteCommaNumSuffix (stripLeadingEmptyMarker
      ((lines.drop 1).foldl (fun acc l => acc ++ '\n' :: l)
        ((lines.headD []).drop (m + 1))))))

theorem parse_single_record_multi (raw : Str) (F : List Str) (ds : Str) (m : Nat)
    (hlen : (splitOnChar '\n' raw).length ≠ 1)
    (hds : trailingDigits ((splitOnChar '\n' raw).getLastD []) = some ds)
    (hm : markerPos ((splitOnChar '\n' raw).headD []) = some m) :
    parse_single_record raw F = some (dictSet (dictSet (dictSet
      (buildStructured F (parse_csv_fields (((splitOnChar '\n' raw).headD []).take m)))
      eventNarrativeKey [])
      episodeNarrativeKey (multiEpisode (splitOnChar '\n' raw) m))
      rowNumberKey ds) := by
  rw [parse_single_record]
  simp only [if_neg hlen, hds, hm, multiEpisode]

/-! ## Claim C3 -/

/-- C3: a multi-line span whose last line carries trailing digits and whose
first line contains a marker yields a record with the event narrative forced
empty, the episode narrative set to the reconstructed normalized text, the
row-sequence field set to the trailing digit group of the last line and not
to any positionally parsed value, and every remaining schema field taken
positionally from the csv parse of the structured prefix left of the marker,
with positions beyond that parse filled by the empty string instead of
failing. The schema ends in the three special field names and has no
duplicate names. -/
theorem claim_C3_multiline_marker_record (raw : Str) (F0 : List Str) (ds : Str) (m : Nat)
    (hnodup : (F0 ++ [eventNarrativeKey, episodeNarrativeKey, rowNumberKey]).Nodup)
    (hlen : (splitOnChar '\n' raw).length ≠ 1)
    (hds : trailingDigits ((splitOnChar '\n' raw).getLastD []) = some ds)
    (hm : markerPos ((splitOnChar '\n' raw).headD []) = some m) :
    ∃ r, parse_single_record raw
        (F0 ++ [eventNarrativeKey, episodeNarrativeKey, rowNumberKey]) = some r ∧
      dictGet r eventNarrativeKey = some [] ∧
      dictGet r episodeNarrativeKey = some (multiEpisode (splitOnChar '\n' raw) m) ∧
      dictGet r rowNumberKey = some ds ∧
      ∀ i (hi : i < F0.length), dictGet r (F0.get ⟨i, hi⟩) =
        some ((parse_csv_fields
          (((splitOnChar '\n' raw).headD []).take m)).getD i []) := by
  set F := F0 ++ [eventNarrativeKey, episodeNarrativeKey, rowNumberKey] with hF
  have htake : F.take (F.length - 3) = F0 := by
    have hlen3 : F.length = F0.length + 3 := by simp [hF]
    rw [hlen3]
    simp only [Nat.add_sub_cancel]
    rw [hF]
    exact List.take_left F0 _
  have hsplitdup := (List.nodup_append.mp hnodup)
  have hF0nodup : F0.Nodup := hsplitdup.1
  have hdisj : ∀ x ∈ F0, x ∉ [eventNarrativeKey, episodeNarrativeKey, rowNumberKey] :=
    fun x hx => hsplitdup.2.2 hx
  refine ⟨_, parse_single_record_multi raw F ds m hlen hds hm, ?_, ?_, ?_, ?_⟩
  · rw [dictGet_dictSet_ne _ _ _ _ (by decide), dictGet_dictSet_ne _ _ _ _ (by decide),
      dictGet_dictSet_self]
  · rw [dictGet_dictSet_ne _ _ _ _ (by decide), dictGet_dictSet_self]
  · rw [dictGet_dictSet_self]
  · intro i hi
    have hmem : F0.get ⟨i, hi⟩ ∈ F0 := List.get_mem F0 i hi
    have hni := hdisj _ hmem
    simp only [List.mem_cons, List.mem_singleton, not_or] at hni
    rw [dictGet_dictSet_ne _ _ _ _ hni.2.2.1, dictGet_dictSet_ne _ _ _ _ hni.2.1,
      dictGet_dictSet_ne _ _ _ _ hni.1]
    rw [buildStructured_eq F _ (by rw [htake]; exact hF0nodup), htake]
    exact dictGet_of_map_enum F0
      (fun n => (parse_csv_fields (((splitOnChar '\n' raw).headD []).take m)).getD n [])
      i hi hF0nodup

/-- Concrete instantiation of C3: a two-line span with structured prefix x,
marker after it, narrative fragment on the second line and trailing row
number 1, parsed against a four-field schema. -/
theorem claim_C3_multiline_marker_record_witness :
    ∃ r, parse_single_record "x,\"\",\"\nabc \"\",1".data
        (["A".data] ++ [eventNarrativeKey, episodeNarrativeKey, rowNumberKey]) = some r ∧
      dictGet r eventNarrativeKey = some [] ∧
      dictGet r episodeNarrativeKey =
        some (multiEpisode (splitOnChar '\n' "x,\"\",\"\nabc \"\",1".data) 1) ∧
      dictGet r rowNumberKey = some "1".data ∧
      ∀ i (hi : i < ["A".data].length), dictGet r (["A".data].get ⟨i, hi⟩) =
        some ((parse_csv_fields
          (((splitOnChar '\n' "x,\"\",\"\nabc \"\",1".data).headD []).take 1)).getD i []) :=
  claim_C3_multiline_marker_record "x,\"\",\"\nabc \"\",1".data ["A".data] "1".data 1
    (by decide) (by decide) (by decide) (by decide)

/-! ## Claim C9 -/

theorem getD_take_of_lt (l : List Str) (n i : Nat) (h : i < n) :
    (l.take n).getD i [] = l.getD i [] := by
  rw [List.getD, List.getD, List.get?_take h]

theorem buildStructured_take (F sfs : List Str) :
    buildStructured F (sfs.take (F.length - 3)) = buildStructured F sfs := by
  rw [buildStructured, buildStructured]
  have hgen : ∀ (ps : List (Nat × Str)) (d : Record),
      (∀ p ∈ ps, p.1 < F.length - 3) →
      ps.foldl (fun row p => dictSet row p.2 ((sfs.take (F.length - 3)).getD p.1 [])) d =
      ps.foldl (fun row p => dictSet row p.2 (sfs.getD p.1 [])) d := by
    intro ps
    induction ps with
    | nil => intro d _; rfl
    | cons p ps ih =>
      intro d hlt
      rw [List.foldl_cons, List.foldl_cons]
      rw [getD_take_of_lt sfs _ p.1 (hlt p (by simp))]
      exact ih _ (fun q hq => hlt q (by simp [hq]))
  refine hgen _ [] ?_
  intro p hp
  have hs := List.mem_enum_iff_get?.mp hp
  obtain ⟨hlt, -⟩ := List.get?_eq_some.mp hs
  simpa using hlt

/-- C9: on the multi-line marker path the structured prefix may parse to
more values than the schema has non-narrative, non-sequence fields; the
record is still produced, and it is identical to the one built from only
the first schema-length-minus-three structured values, so surplus values
are silently discarded and never cause a rejection. -/
theorem claim_C9_surplus_structured_values (raw : Str) (F : List Str) (ds : Str) (m : Nat)
    (hlen : (splitOnChar '\n' raw).length ≠ 1)
    (hds : trailingDigits ((splitOnChar '\n' raw).getLastD []) = some ds)
    (hm : markerPos ((splitOnChar '\n' raw).headD []) = some m) :
    ∃ r, parse_single_record raw F = some r ∧
      r = dictSet (dictSet (dictSet
        (buildStructured F ((parse_csv_fields
          (((splitOnChar '\n' raw).headD []).take m)).take (F.length - 3)))
        eventNarrativeKey [])
        episodeNarrativeKey (multiEpisode (splitOnChar '\n' raw) m))
        rowNumberKey ds := by
  refine ⟨_, parse_single_record_multi raw F ds m hlen hds hm, ?_⟩
  rw [buildStructured_take]

/-- Concrete instantiation of C9: a span whose structured prefix parses to
four values against a four-field schema that keeps only one structured
field; the record is produced and matches the one built from the truncated
value list. -/
theorem claim_C9_surplus_structured_values_witness :
    ∃ r, parse_single_record "1,2,3,4,\"\",\"\nabc \"\",1".data
        ["A".data, eventNarrativeKey, episodeNarrativeKey, rowNumberKey] = some r ∧
      r = dictSet (dictSet (dictSet
        (buildStructured ["A".data, eventNarrativeKey, episodeNarrativeKey, rowNumberKey]
          ((parse_csv_fields
            (((splitOnChar '\n' "1,2,3,4,\"\",\"\nabc \"\",1".data).headD []).take 7)).take
            (["A".data, eventNarrativeKey, episodeNarrativeKey, rowNumberKey].length - 3)))
        eventNarrativeKey [])
        episodeNarrativeKey
        (multiEpisode (splitOnChar '\n' "1,2,3,4,\"\",\"\nabc \"\",1".data) 7))
        rowNumberKey "1".data :=
  claim_C9_surplus_structured_values "1,2,3,4,\"\",\"\nabc \"\",1".data
    ["A".data, eventNarrativeKey, episodeNarrativeKey, rowNumberKey] "1".data 7
    (by decide) (by decide) (by decide)

/-! ## Character-level lemmas for the newline invariant -/

theorem mem_pyReplace (old new s : Str) (x : Char) (hx : x ∈ pyReplace old new s) :
    x ∈ s ∨ x ∈ new := by
  by_cases hold : old = []
  · subst hold
    rw [pyReplace_empty] at hx
    exact Or.inl hx
  · refine str_strong_induction
      (fun s => x ∈ pyReplace old new s → x ∈ s ∨ x ∈ new) ?_ s hx
    intro s ih h
    cases s with
    | nil =>
      rw [pyReplace_nil] at h
      simp at h
    | cons c rest =>
      by_cases hpre : old.isPrefixOf (c :: rest) = true
      · rw [pyReplace_cons_pos old new c rest hold hpre] at h
        rcases List.mem_append.mp h with h | h
        · exact Or.inr h
        · have hlen := isPrefixOf_length_le old (c :: rest) hpre
          have holdpos : 0 < old.length := List.length_pos.mpr hold
          rcases ih ((c :: rest).drop old.length)
              (by simp only [List.length_drop, List.length_cons] at *; omega) h with h | h
          · exact Or.inl (List.mem_of_mem_drop h)
          · exact Or.inr h
      · rw [pyReplace_cons_neg old new c rest hold hpre] at h
        rcases List.mem_cons.mp h with h | h
        · simp [h]
        · rcases ih rest (by simp) h with h | h
          · simp [h]
          · exact Or.inr h

theorem not_mem_pyReplace_single (c : Char) (new s : Str) (hc : c ∉ new) :
    c ∉ pyReplace [c] new s := by
  induction s with
  | nil =>
    rw [pyReplace_nil]
    simp
  | cons d rest ih =>
    by_cases hdc : [c].isPrefixOf (d :: rest) = true
    · rw [pyReplace_cons_pos [c] new d rest (by simp) hdc]
      intro hmem
      rcases List.mem_append.mp hmem with h | h
      · exact hc h
      · exact ih h
    · rw [pyReplace_cons_neg [c] new d rest (by simp) hdc]
      intro hmem
      rcases List.mem_cons.mp hmem with h | h
      · apply hdc
        simp [List.isPrefixOf, h]
      · exact ih h

theorem mem_collapseBlankLines (s : Str) (x : Char) (hx : x ∈ collapseBlankLines s) :
    x ∈ s ∨ x = '\n' := by
  refine str_strong_induction (fun s => x ∈ collapseBlankLines s → x ∈ s ∨ x = '\n')
    ?_ s hx
  intro s ih h
  rw [collapseBlankLines_eq] at h
  by_cases hc : containsSub s ['\n', '\n'] = true
  · rw [if_pos hc] at h
    have hlt := pyReplace_length_lt ['\n', '\n'] ['\n'] (by simp) s hc
    rcases ih _ hlt h with h | h
    · rcases mem_pyReplace _ _ _ _ h with h | h
      · exact Or.inl h
      · simp only [List.mem_singleton] at h
        exact Or.inr h
    · exact Or.inr h
  · rw [if_neg hc] at h
    exact Or.inl h

theorem mem_collapseSpaces (s : Str) (x : Char) (hx : x ∈ collapseSpaces s) :
    x ∈ s ∨ x = ' ' := by
  refine str_strong_induction (fun s => x ∈ collapseSpaces s → x ∈ s ∨ x = ' ')
    ?_ s hx
  intro s ih h
  rw [collapseSpaces_eq] at h
  by_cases hc : containsSub s [' ', ' '] = true
  · rw [if_pos hc] at h
    have hlt := pyReplace_length_lt [' ', ' '] [' '] (by simp) s hc
    rcases ih _ hlt h with h | h
    · rcases mem_pyReplace _ _ _ _ h with h | h
      · exact Or.inl h
      · simp only [List.mem_singleton] at h
        exact Or.inr h
    · exact Or.inr h
  · rw [if_neg hc] at h
    exact Or.inl h

theorem mem_pyStrip (cs : List Char) (s : Str) (x : Char) (hx : x ∈ pyStrip cs s) :
    x ∈ s := by
  rw [pyStrip] at hx
  rw [List.mem_reverse] at hx
  have h1 := List.dropWhile_sublist (l := (dropWhileMem cs s).reverse)
    (p := fun c => cs.contains c)
  have h2 : x ∈ (dropWhileMem cs s).reverse := h1.mem (by simpa [dropWhileMem] using hx)
  rw [List.mem_reverse] at h2
  have h3 := List.dropWhile_sublist (l := s) (p := fun c => cs.contains c)
  exact h3.mem (by simpa [dropWhileMem] using h2)

/-- The output of clean_narrative contains no newline and no carriage
return. -/
theorem clean_narrative_newline_free (t : Str) :
    '\n' ∉ clean_narrative t ∧ '\r' ∉ clean_narrative t := by
  rw [clean_narrative]
  by_cases h0 : t = []
  · simp [h0]
  · rw [if_neg h0]
    constructor
    · intro hmem
      have h5 := mem_pyStrip _ _ _ (mem_pyStrip _ _ _ hmem)
      rcases mem_collapseSpaces _ _ h5 with h6 | h6
      · exact not_mem_pyReplace_single '\n' [' ', '|', ' '] _ (by decide) h6
      · exact absurd h6 (by decide)
    · intro hmem
      have h5 := mem_pyStrip _ _ _ (mem_pyStrip _ _ _ hmem)
      rcases mem_collapseSpaces _ _ h5 with h6 | h6
      · rcases mem_pyReplace _ _ _ _ h6 with h7 | h7
        · rcases mem_collapseBlankLines _ _ h7 with h8 | h8
          · exact not_mem_pyReplace_single '\r' ['\n'] _ (by decide) h8
          · exact absurd h8 (by decide)
        · exact absurd h7 (by decide)
      · exact absurd h6 (by decide)

theorem csvGo_chars (s : Str) : ∀ (st : CsvState) (fields : List Str) (cur v : Str),
    v ∈ csvGo s st fields cur → ∀ x ∈ v,
    (∃ f ∈ fields, x ∈ f) ∨ x ∈ cur ∨ x ∈ s := by
  induction s with
  | nil =>
    intro st fields cur v hv x hx
    have hv2 : v ∈ fields ++ [cur] := by
      cases st <;> simpa [csvGo] using hv
    rcases List.mem_append.mp hv2 with h | h
    · exact Or.inl ⟨v, h, hx⟩
    · simp only [List.mem_singleton] at h
      subst h
      exact Or.inr (Or.inl hx)
  | cons c rest ih =>
    intro st fields cur v hv x hx
    have step : ∀ (st2 : CsvState) (fields2 : List Str) (cur2 : Str),
        (fields2 = fields ∨ fields2 = fields ++ [cur]) →
        (cur2 = cur ∨ cur2 = [] ∨ cur2 = cur ++ [c]) →
        v ∈ csvGo rest st2 fields2 cur2 →
        (∃ f ∈ fields, x ∈ f) ∨ x ∈ cur ∨ x ∈ c :: rest := by
      intro st2 fields2 cur2 hf2 hc2 hv2
      rcases ih st2 fields2 cur2 v hv2 x hx with ⟨f, hf, hxf⟩ | h | h
      · rcases hf2 with rfl | rfl
        · exact Or.inl ⟨f, hf, hxf⟩
        · rcases List.mem_append.mp hf with hf | hf
          · exact Or.inl ⟨f, hf, hxf⟩
          · simp only [List.mem_singleton] at hf
            subst hf
            exact Or.inr (Or.inl hxf)
      · rcases hc2 with rfl | rfl | rfl
        · exact Or.inr (Or.inl h)
        · simp at h
        · rcases List.mem_append.mp h with h | h
          · exact Or.inr (Or.inl h)
          · simp only [List.mem_singleton] at h
            subst h
            exact Or.inr (Or.inr (by simp))
      · exact Or.inr (Or.inr (by simp [h]))
    cases st with
    | startField =>
      rw [csvGo] at hv
      split_ifs at hv with h1 h2
      · exact step _ _ _ (Or.inl rfl) (Or.inl rfl) hv
      · exact step _ _ _ (Or.inr rfl) (Or.inr (Or.inl rfl)) hv
      · exact step _ _ _ (Or.inl rfl) (Or.inr (Or.inr rfl)) hv
    | inField =>
      rw [csvGo] at hv
      split_ifs at hv with h1
      · exact step _ _ _ (Or.inr rfl) (Or.inr (Or.inl rfl)) hv
      · exact step _ _ _ (Or.inl rfl) (Or.inr (Or.inr rfl)) hv
    | inQuoted =>
      rw [csvGo] at hv
      split_ifs at hv with h1
      · exact step _ _ _ (Or.inl rfl) (Or.inl rfl) hv
      · exact step _ _ _ (Or.inl rfl) (Or.inr (Or.inr rfl)) hv
    | quoteInQuoted =>
      rw [csvGo] at hv
      split_ifs at hv with h1 h2
      · subst h1
        exact step _ _ _ (Or.inl rfl) (Or.inr (Or.inr rfl)) hv
      · exact step _ _ _ (Or.inr rfl) (Or.inr (Or.inl rfl)) hv
      · exact step _ _ _ (Or.inl rfl) (Or.inr (Or.inr rfl)) hv

theorem csvParseLine_chars (line : Str) (vs : List Str) (h : csvParseLine line = some vs)
    (v : Str) (hv : v ∈ vs) (x : Char) (hx : x ∈ v) : x ∈ line := by
  rw [csvParseLine] at h
  split_ifs at h with h1
  have hvs : vs = csvGo line .startField [] [] := by
    simpa using h.symm
  subst hvs
  rcases csvGo_chars line .startField [] [] v hv x hx with ⟨f, hf, -⟩ | hx2 | hx2
  · simp at hf
  · simp at hx2
  · exact hx2

/-- Joining the pieces of a split recovers the original string: the inverse
direction of the split and join pair, with no side condition. -/
theorem intercalate_splitOnChar (sep : Char) (s : Str) :
    List.intercalate [sep] (splitOnChar sep s) = s := by
  induction s with
  | nil => simp [splitOnChar, List.intercalate]
  | cons c rest ih =>
    rw [splitOnChar_cons]
    rcases hr : splitOnChar sep rest with _ | ⟨g, gs⟩
    · exact absurd hr (splitOnChar_ne_nil sep rest)
    · rw [hr] at ih
      by_cases hc : c = sep
      · rw [if_pos hc, intercalate_cons2, ih, hc]
        simp
      · rw [if_neg hc]
        simp only [List.headD_cons, List.tail_cons]
        cases gs with
        | nil =>
          rw [intercalate_singleton]
          rw [intercalate_singleton] at ih
          rw [ih]
        | cons q qs =>
          rw [intercalate_cons2]
          rw [intercalate_cons2] at ih
          rw [List.cons_append, ih]

theorem mem_intercalate_nl (ps : List Str) (x : Char)
    (hx : x ∈ List.intercalate ['\n'] ps) : (∃ p ∈ ps, x ∈ p) ∨ x = '\n' := by
  induction ps with
  | nil => simp [List.intercalate] at hx
  | cons p rest ih =>
    cases rest with
    | nil =>
      rw [intercalate_singleton] at hx
      exact Or.inl ⟨p, by simp, hx⟩
    | cons q qs =>
      rw [intercalate_cons2] at hx
      rcases List.mem_append.mp hx with h | h
      · exact Or.inl ⟨p, by simp, h⟩
      · rcases List.mem_cons.mp h with h | h
        · exact Or.inr h
        · rcases ih h with ⟨r, hr, hxr⟩ | h
          · exact Or.inl ⟨r, by simp [hr], hxr⟩
          · exact Or.inr h

theorem dictGet_foldl_dictSet_mem (kvs : List (Str × Str)) : ∀ (d : Record) (k v : Str),
    dictGet (kvs.foldl (fun row q => dictSet row q.1 q.2) d) k = some v →
    v ∈ kvs.map Prod.snd ∨ dictGet d k = some v := by
  induction kvs with
  | nil =>
    intro d k v h
    exact Or.inr h
  | cons q kvs ih =>
    intro d k v h
    rw [List.foldl_cons] at h
    rcases ih _ k v h with hm | hm
    · exact Or.inl (by simp [hm])
    · by_cases hk : k = q.1
      · subst hk
        rw [dictGet_dictSet_self] at hm
        exact Or.inl (by simp [← Option.some.inj hm])
      · rw [dictGet_dictSet_ne _ _ _ _ hk] at hm
        exact Or.inr hm

theorem dictGet_dictZip_mem (ks vs : List Str) (k v : Str)
    (h : dictGet (dictZip ks vs) k = some v) : v ∈ vs := by
  rcases dictGet_foldl_dictSet_mem _ _ _ _ h with hm | hm
  · rcases List.mem_map.mp hm with ⟨⟨a, b⟩, hab, hb⟩
    subst hb
    exact (List.of_mem_zip hab).2
  · rw [dictGet_nil] at hm
    exact absurd hm (by simp)

theorem dictGet_cleanNarrativeField (row : Record) (g k v : Str)
    (h : dictGet (cleanNarrativeField row g) k = some v) :
    dictGet row k = some v ∨ ∃ w, v = clean_narrative w := by
  rw [cleanNarrativeField] at h
  rcases hg : dictGet row g with _ | w
  · rw [hg] at h
    exact Or.inl h
  · simp only [hg] at h
    by_cases hw : w = []
    · rw [if_pos hw] at h
      exact Or.inl h
    · rw [if_neg hw] at h
      by_cases hk : k = g
      · subst hk
        rw [dictGet_dictSet_self] at h
        exact Or.inr ⟨w, (Option.some.inj h).symm⟩
      · rw [dictGet_dictSet_ne _ _ _ _ hk] at h
        exact Or.inl h

/-- Provenance of the values of a record produced by the single-line parser:
every field value is either made of characters of the input line or is the
output of clean_narrative. -/
theorem parse_single_line_record_chars (line : Str) (F : List Str) (r : Record)
    (h : parse_single_line_record line F = some r) (k v : Str)
    (hget : dictGet r k = some v) :
    (∀ x ∈ v, x ∈ line) ∨ ∃ w, v = clean_narrative w := by
  rw [parse_single_line_record] at h
  rcases hcsv : csvParseLine line with _ | values
  · rw [hcsv] at h
    exact absurd h (by simp)
  · simp only [hcsv] at h
    split_ifs at h with hlen
    have hr : r = cleanNarrativeField (cleanNarrativeField (dictZip F values)
        eventNarrativeKey) episodeNarrativeKey := by
      simpa using h.symm
    subst hr
    rcases dictGet_cleanNarrativeField _ _ _ _ hget with h2 | h2
    · rcases dictGet_cleanNarrativeField _ _ _ _ h2 with h3 | h3
      · left
        intro x hx
        exact csvParseLine_chars line values hcsv v (dictGet_dictZip_mem F values k v h3) x hx
      · exact Or.inr h3
    · exact Or.inr h2

theorem mem_of_mem_splitOnChar (sep : Char) (s : Str) : ∀ l ∈ splitOnChar sep s,
    ∀ x ∈ l, x ∈ s := by
  induction s with
  | nil =>
    intro l hl x hx
    simp only [splitOnChar] at hl
    simp only [List.mem_singleton] at hl
    subst hl
    simp at hx
  | cons c rest ih =>
    intro l hl x hx
    rw [splitOnChar_cons] at hl
    rcases hr : splitOnChar sep rest with _ | ⟨g, gs⟩
    · exact absurd hr (splitOnChar_ne_nil sep rest)
    · rw [hr] at hl
      by_cases hc : c = sep
      · rw [if_pos hc] at hl
        rcases List.mem_cons.mp hl with hl | hl
        · subst hl
          simp at hx
        · exact List.mem_cons_of_mem c (ih l (by rw [hr]; exact hl) x hx)
      · rw [if_neg hc] at hl
        simp only [List.headD_cons, List.tail_cons] at hl
        rcases List.mem_cons.mp hl with hl | hl
        · subst hl
          rcases List.mem_cons.mp hx with hx | hx
          · simp [hx]
          · exact List.mem_cons_of_mem c (ih g (by rw [hr]; simp) x hx)
        · exact List.mem_cons_of_mem c (ih l (by rw [hr]; simp [hl]) x hx)

/-! ## Claim C5 -/

/-- C5: in every record produced by the transform, the value of the
event-narrative field and the value of the episode-narrative field contain
no newline and no carriage return. -/
theorem claim_C5_narratives_newline_free (content : Str) (r : Record)
    (hr : r ∈ (parse_malformed_csv content).2) (f : Str)
    (hf : f = eventNarrativeKey ∨ f = episodeNarrativeKey)
    (v : Str) (hv : dictGet r f = some v) : '\n' ∉ v ∧ '\r' ∉ v := by
  simp only [parse_malformed_csv] at hr
  rw [List.mem_filterMap] at hr
  obtain ⟨raw, hraw, hparse⟩ := hr
  set nc := normalizeContent content with hnc
  set ls := (splitOnChar '\n' nc).drop 1 with hls
  set F := splitOnChar ',' ((splitOnChar '\n' nc).headD []) with hF
  have hls_n : ∀ l ∈ ls, ('\n' : Char) ∉ l := fun l hl =>
    splitOnChar_sep_free '\n' nc l (List.mem_of_mem_drop hl)
  have hnc_r : ('\r' : Char) ∉ nc :=
    not_mem_pyReplace_single '\r' ['\n'] _ (by decide)
  have hls_r : ∀ l ∈ ls, ('\r' : Char) ∉ l := by
    intro l hl hmem
    exact hnc_r (mem_of_mem_splitOnChar '\n' nc l (List.mem_of_mem_drop hl) '\r' hmem)
  have hcons := scanGo_conserves ls [] 1 (by simp) hls_n
  have hsp : ∀ l ∈ splitOnChar '\n' raw, l ∈ ls := by
    intro l hl
    rw [show ls = ((scanGo [] 1 ls).map (splitOnChar '\n')).flatten by
      rw [hcons]; simp]
    rw [List.mem_flatten]
    exact ⟨splitOnChar '\n' raw, List.mem_map_of_mem _ hraw, hl⟩
  have hraw_r : ('\r' : Char) ∉ raw := by
    intro hmem
    rw [← intercalate_splitOnChar '\n' raw] at hmem
    rcases mem_intercalate_nl _ _ hmem with ⟨p, hp, hxp⟩ | h
    · exact hls_r p (hsp p hp) hxp
    · exact absurd h (by decide)
  have hclean : ∀ w : Str, ('\n' : Char) ∉ clean_narrative w ∧
      ('\r' : Char) ∉ clean_narrative w := clean_narrative_newline_free
  rw [parse_single_record] at hparse
  by_cases hlen1 : (splitOnChar '\n' raw).length = 1
  · rw [if_pos hlen1] at hparse
    have hraw_n : ('\n' : Char) ∉ raw := by
      rcases hspr : splitOnChar '\n' raw with _ | ⟨a, rest⟩
      · exact absurd hspr (splitOnChar_ne_nil '\n' raw)
      · rw [hspr] at hlen1
        simp only [List.length_cons] at hlen1
        have hrest : rest = [] := by
          cases rest with
          | nil => rfl
          | cons b bs => simp at hlen1
        subst hrest
        have : raw = a := by
          rw [← intercalate_splitOnChar '\n' raw, hspr, intercalate_singleton]
        rw [this]
        exact hls_n a (hsp a (by rw [hspr]; simp))
    rcases parse_single_line_record_chars raw F r hparse f v hv with hc | ⟨w, hw⟩
    · exact ⟨fun hm => hraw_n (hc '\n' hm), fun hm => hraw_r (hc '\r' hm)⟩
    · rw [hw]
      exact hclean w
  · rw [if_neg hlen1] at hparse
    rcases hds : trailingDigits ((splitOnChar '\n' raw).getLastD []) with _ | ds
    · simp only [hds] at hparse
      exact absurd hparse (by simp)
    · simp only [hds] at hparse
      rcases hm : markerPos ((splitOnChar '\n' raw).headD []) with _ | m
      · simp only [hm] at hparse
        have hline2_n : ('\n' : Char) ∉ pyReplace ['\n'] [' ', '|', ' '] raw :=
          not_mem_pyReplace_single '\n' _ _ (by decide)
        have hline2_r : ('\r' : Char) ∉ pyReplace ['\n'] [' ', '|', ' '] raw := by
          intro hmem
          rcases mem_pyReplace _ _ _ _ hmem with h | h
          · exact hraw_r h
          · exact absurd h (by decide)
        rcases parse_single_line_record_chars _ F r hparse f v hv with hc | ⟨w, hw⟩
        · exact ⟨fun hm2 => hline2_n (hc '\n' hm2), fun hm2 => hline2_r (hc '\r' hm2)⟩
        · rw [hw]
          exact hclean w
      · simp only [hm] at hparse
        have hr2 := Option.some.inj hparse
        rcases hf with rfl | rfl
        · rw [← hr2, dictGet_dictSet_ne _ _ _ _ (by decide),
            dictGet_dictSet_ne _ _ _ _ (by decide), dictGet_dictSet_self] at hv
          rw [← Option.some.inj hv]
          exact ⟨by simp, by simp⟩
        · rw [← hr2, dictGet_dictSet_ne _ _ _ _ (by decide),
            dictGet_dictSet_self] at hv
          rw [← Option.some.inj hv]
          exact hclean _

/-- Concrete instantiation of C5 on a file with one malformed record: the
reconstructed episode narrative is free of newlines. -/
theorem claim_C5_narratives_newline_free_witness :
    ('\n' : Char) ∉ "abc ".data ∧ ('\r' : Char) ∉ "abc ".data :=
  claim_C5_narratives_newline_free
    "A,EVENT_NARRATIVE,EPISODE_NARRATIVE,ABSOLUTE_ROWNUMBER\nx,\"\",\"\nabc \"\",1".data
    [("A".data, "x".data), (eventNarrativeKey, []),
     (episodeNarrativeKey, "abc ".data), (rowNumberKey, "1".data)]
    (by decide) episodeNarrativeKey (Or.inr rfl) "abc ".data (by decide)

/-! ## Lemmas about rfind -/

theorem mem_of_getLast?_eq (l : List Nat) (a : Nat) (h : l.getLast? = some a) : a ∈ l := by
  obtain ⟨hne, heq⟩ := List.mem_getLast?_eq_getLast (Option.mem_def.mpr h)
  rw [heq]
  exact List.getLast_mem hne

theorem pairwise_lt_getLast_max (l : List Nat) : l.Pairwise (· < ·) →
    ∀ i, l.getLast? = some i → ∀ j ∈ l, j ≤ i := by
  induction l with
  | nil => simp
  | cons a t ih =>
    intro h i hi j hj
    rw [List.pairwise_cons] at h
    cases t with
    | nil =>
      simp only [List.getLast?_singleton, Option.some.injEq] at hi
      simp only [List.mem_singleton] at hj
      omega
    | cons b u =>
      rw [List.getLast?_cons_cons] at hi
      have hmem : i ∈ b :: u := mem_of_getLast?_eq _ _ hi
      rcases List.mem_cons.mp hj with hj | hj
      · subst hj
        exact Nat.le_of_lt (h.1 i hmem)
      · exact ih h.2 i hi j hj

theorem occursAt_false_of_gt_length (s pat : Str) (hpat : pat ≠ []) (j : Nat)
    (hj : s.length < j) : occursAt s pat j = false := by
  rw [occursAt]
  have hdrop : s.drop j = [] := List.drop_eq_nil_of_le (Nat.le_of_lt hj)
  rw [hdrop]
  cases pat with
  | nil => exact absurd rfl hpat
  | cons a t => simp [List.isPrefixOf]

theorem rfindList_eq_some (s pat : Str) (hpat : pat ≠ []) (i : Nat)
    (h : rfindList s pat = some i) :
    occursAt s pat i = true ∧ ∀ j, occursAt s pat j = true → j ≤ i := by
  rw [rfindList] at h
  have hmem := mem_of_getLast?_eq _ _ h
  rw [List.mem_filter] at hmem
  refine ⟨hmem.2, ?_⟩
  intro j hj
  by_cases hjs : j ≤ s.length
  · have hjf : j ∈ (List.range (s.length + 1)).filter (fun i => occursAt s pat i) := by
      rw [List.mem_filter, List.mem_range]
      exact ⟨by omega, hj⟩
    exact pairwise_lt_getLast_max _
      ((List.pairwise_lt_range _).filter _) i h j hjf
  · rw [occursAt_false_of_gt_length s pat hpat j (by omega)] at hj
    simp at hj

theorem rfindList_eq_none (s pat : Str) (hpat : pat ≠ []) (h : rfindList s pat = none) :
    ∀ j, occursAt s pat j = false := by
  intro j
  by_cases hjs : j ≤ s.length
  · rw [rfindList] at h
    rw [List.getLast?_eq_none] at h
    cases hocc : occursAt s pat j with
    | false => rfl
    | true =>
      have : j ∈ (List.range (s.length + 1)).filter (fun i => occursAt s pat i) := by
        rw [List.mem_filter, List.mem_range]
        exact ⟨by omega, hocc⟩
      rw [h] at this
      simp at this
  · exact occursAt_false_of_gt_length s pat hpat j (by omega)

/-- An occurrence of the longer second marker variant is an occurrence of
the first: the first variant is a prefix of the second. -/
theorem occursAt_markerA_of_markerB (l : Str) (j : Nat)
    (h : occursAt l markerB j = true) : occursAt l markerA j = true := by
  rw [occursAt] at h ⊢
  have hA : markerA <+: markerB := ⟨[' '], rfl⟩
  have hB : markerB <+: l.drop j := by simpa using h
  simpa using hA.trans hB

/-- If the first marker variant does not occur, the second does not occur
either, so the second rfind of the source can never fire. -/
theorem rfindList_markerB_dead (l : Str) (h : rfindList l markerA = none) :
    rfindList l markerB = none := by
  cases hB : rfindList l markerB with
  | none => rfl
  | some i =>
    have hocc := (rfindList_eq_some l markerB (by decide) i hB).1
    have hA := rfindList_eq_none l markerA (by decide) h i
    rw [occursAt_markerA_of_markerB l i hocc] at hA
    simp at hA

/-! ## Claim C4 -/

/-- Modelled from the claim wording: the marker variants tried in priority
order from most specific to least specific, that is the six-character
variant first, then the five-character one, then the four-character one,
each located by its rightmost occurrence. The source instead tries the
five-character variant before the six-character one. -/
def markerPosClaimed (firstLine : Str) : Option Nat :=
  match rfindList firstLine markerB with
  | some i => some i
  | none =>
    match rfindList firstLine markerA with
    | some i => some i
    | none => rfindList firstLine markerC

/-- parse_single_record with the claimed most-specific-first marker order in
place of the source order, for comparison. -/
def parse_single_record_claimed (raw : Str) (fieldnames : List Str) : Option Record :=
  let lines := splitOnChar '\n' raw
  if lines.length = 1 then
    parse_single_line_record raw fieldnames
  else
    let first_line := lines.headD []
    let last_line := lines.getLastD []
    match trailingDigits last_line with
    | none => none
    | some row_number =>
      match markerPosClaimed first_line with
      | none => parse_single_line_record (pyReplace ['\n'] [' ', '|', ' '] raw) fieldnames
      | some narrative_marker =>
        let structured_part := first_line.take narrative_marker
        let structured_fields := parse_csv_fields structured_part
        let narrative_start := first_line.drop (narrative_marker + 1)
        let full_narrative := (lines.drop 1).foldl (fun acc l => acc ++ '\n' :: l) narrative_start
        let n1 := stripLeadingEmptyMarker full_narrative
        let n2 := cutEndAnchored quoteCommaNumSuffix n1
        let n3 := cutEndAnchored commaNumSuffix n2
        let episode_narrative := clean_narrative n3
        let row := buildStructured fieldnames structured_fields
        let row := dictSet row eventNarrativeKey []
        let row := dictSet row episodeNarrativeKey episode_narrative
        let row := dictSet row rowNumberKey row_number
        some row

/-- C4 as stated is false: the source tries the five-character variant
before the strictly more specific six-character one, so on a first line
containing the six-character variant on the left and a bare five-character
occurrence further right, the source splits at the rightmost five-character
occurrence while the claimed most-specific-first order splits at the
six-character occurrence, and the two produced records differ. -/
theorem claim_C4_counterexample :
    markerPos ",\"\",\" a,\"\",\"b".data = some 7 ∧
    markerPosClaimed ",\"\",\" a,\"\",\"b".data = some 0 ∧
    parse_single_record ",\"\",\" a,\"\",\"b\nx \",1".data
        ["A".data, eventNarrativeKey, episodeNarrativeKey, rowNumberKey] ≠
      parse_single_record_claimed ",\"\",\" a,\"\",\"b\nx \",1".data
        ["A".data, eventNarrativeKey, episodeNarrativeKey, rowNumberKey] := by
  refine ⟨by decide, by decide, by decide⟩

/-- C4 amended: the variants are tried in the fixed source order, first the
five-character variant, then the six-character one, then the four-character
one, each by rightmost occurrence; the six-character variant contains the
five-character one, so it can never decide and the effective search is the
rightmost occurrence of the five-character variant, else of the
four-character one. Each used rfind is truly the rightmost occurrence. When
no variant occurs in the first line of a multi-line span whose last line
carries a trailing number, the whole span with newlines replaced by the
separator is re-parsed as a single-line record, and a single-line parse
accepts exactly when the field count equals the schema length. -/
theorem claim_C4_amended_marker_search (l raw : Str) (F : List Str) (ds : Str) :
    (markerPos l = match rfindList l markerA with
      | some i => some i
      | none => rfindList l markerC) ∧
    (∀ i, rfindList l markerA = some i →
      occursAt l markerA i = true ∧ ∀ j, occursAt l markerA j = true → j ≤ i) ∧
    (∀ i, rfindList l markerC = some i →
      occursAt l markerC i = true ∧ ∀ j, occursAt l markerC j = true → j ≤ i) ∧
    ((splitOnChar '\n' raw).length ≠ 1 →
      trailingDigits ((splitOnChar '\n' raw).getLastD []) = some ds →
      markerPos ((splitOnChar '\n' raw).headD []) = none →
      parse_single_record raw F =
        parse_single_line_record (pyReplace ['\n'] [' ', '|', ' '] raw) F) ∧
    (∀ line vs, csvParseLine line = some vs →
      ((parse_single_line_record line F).isSome = true ↔ vs.length = F.length)) := by
  refine ⟨?_, ?_, ?_, ?_, ?_⟩
  · rw [markerPos]
    cases hA : rfindList l markerA with
    | some i => rfl
    | none => rw [rfindList_markerB_dead l hA]
  · intro i hi
    exact rfindList_eq_some l markerA (by decide) i hi
  · intro i hi
    exact rfindList_eq_some l markerC (by decide) i hi
  · intro hlen hds hm
    rw [parse_single_record]
    rw [if_neg hlen]
    simp only [hds, hm]
  · intro line vs hvs
    rw [parse_single_line_record]
    simp only [hvs]
    by_cases hl : vs.length = F.length
    · rw [if_pos hl]
      simpa using hl
    · rw [if_neg hl]
      simpa using hl

/-- Concrete instantiation of the amended C4: the effective marker search on
a line carrying only the four-character variant, the fallback equation on a
span with no marker, and the accept-iff-field-count rule on a two-field
line. -/
theorem claim_C4_amended_marker_search_witness :
    markerPos "a,\"\",b".data = some 1 ∧
    parse_single_record "x,y\nz ,2".data ["A".data, "B".data] =
      parse_single_line_record (pyReplace ['\n'] [' ', '|', ' '] "x,y\nz ,2".data)
        ["A".data, "B".data] ∧
    ((parse_single_line_record "p,q".data ["A".data, "B".data]).isSome = true ↔
      (["p".data, "q".data] : List Str).length = (["A".data, "B".data] : List Str).length) := by
  have h := claim_C4_amended_marker_search "a,\"\",b".data "x,y\nz ,2".data
    ["A".data, "B".data] "2".data
  refine ⟨?_, ?_, ?_⟩
  · rw [h.1]
    decide
  · exact h.2.2.2.1 (by decide) (by decide) (by decide)
  · exact h.2.2.2.2 "p,q".data ["p".data, "q".data] (by decide)

/-! ## Claim C7 -/

theorem any_key_of_dictGet (row : Record) (f w : Str) (h : dictGet row f = some w) :
    row.any (fun p => p.1 == f) = true := by
  rw [dictGet] at h
  rcases hf : row.find? (fun p => p.1 == f) with _ | q
  · rw [hf] at h
    simp at h
  · have hq := List.find?_some hf
    have hmem := List.mem_of_find?_eq_some hf
    rw [List.any_eq_true]
    exact ⟨q, hmem, hq⟩

theorem any_key_eq_false (d : Record) (x : Str) (h : x ∉ d.map Prod.fst) :
    d.any (fun p => p.1 == x) = false := by
  rw [List.any_eq_false]
  intro p hp hpx
  exact h (List.mem_map.mpr ⟨p, hp, by simpa using hpx⟩)

theorem dictZip_keys (ks vs : List Str) (hnodup : ks.Nodup) (hlen : ks.length = vs.length) :
    (dictZip ks vs).map Prod.fst = ks := by
  have hfst : (ks.zip vs).map Prod.fst = ks := List.map_fst_zip ks vs (by omega)
  rw [dictZip, foldl_dictSet_fresh (ks.zip vs) [] (by rw [hfst]; exact hnodup) (by simp)]
  simpa using hfst

theorem cleanNarrativeField_keys (row : Record) (f : Str) :
    (cleanNarrativeField row f).map Prod.fst = row.map Prod.fst := by
  rcases hg : dictGet row f with _ | w
  · simp only [cleanNarrativeField, hg]
  · simp only [cleanNarrativeField, hg]
    by_cases hw : w = []
    · rw [if_pos hw]
    · rw [if_neg hw]
      rw [dictSet_keys, if_pos (any_key_of_dictGet row f w hg)]

theorem parse_single_line_record_keys (line : Str) (F : List Str) (r : Record)
    (hnodup : F.Nodup) (h : parse_single_line_record line F = some r) :
    r.map Prod.fst = F := by
  rw [parse_single_line_record] at h
  rcases hcsv : csvParseLine line with _ | vs
  · rw [hcsv] at h
    exact absurd h (by simp)
  · simp only [hcsv] at h
    split_ifs at h with hlen
    have hr := Option.some.inj h
    rw [← hr, cleanNarrativeField_keys, cleanNarrativeField_keys]
    exact dictZip_keys F vs hnodup hlen.symm

theorem buildStructured_keys (F sfs : List Str)
    (hnodup : (F.take (F.length - 3)).Nodup) :
    (buildStructured F sfs).map Prod.fst = F.take (F.length - 3) := by
  rw [buildStructured_eq F sfs hnodup, List.map_map]
  have : (Prod.fst ∘ fun p : Nat × Str => (p.2, sfs.getD p.1 [])) = Prod.snd := by
    funext p
    rfl
  rw [this, List.enum_map_snd]

/-- C7 as stated is false: on a schema that does not end in the three
special field names, the multi-line path still installs those three names,
so the record has more fields than the header declares. A two-field header
with one malformed span yields a three-field record. -/
theorem claim_C7_counterexample :
    ∃ r ∈ (parse_malformed_csv "A,B\nx,\"\",\"\nabc \",1".data).2,
      r.length ≠ (parse_malformed_csv "A,B\nx,\"\",\"\nabc \",1".data).1.length := by
  decide

/-- C7 amended: provided the header declares pairwise distinct field names
whose last three are EVENT_NARRATIVE, EPISODE_NARRATIVE and
ABSOLUTE_ROWNUMBER, every record produced by the transform has exactly the
header fields as keys, in the header order; in particular its field count
equals the header field count. A single-line span whose parsed field count
differs from the schema length yields no record on every path that parses a
single line, which the accept-iff-count rule of the single-line parser
gives. -/
theorem claim_C7_amended_field_count (content : Str) (F0 : List Str)
    (hF : splitOnChar ',' ((splitOnChar '\n' (normalizeContent content)).headD []) =
      F0 ++ [eventNarrativeKey, episodeNarrativeKey, rowNumberKey])
    (hnodup : (F0 ++ [eventNarrativeKey, episodeNarrativeKey, rowNumberKey]).Nodup) :
    ∀ r ∈ (parse_malformed_csv content).2,
      r.map Prod.fst = F0 ++ [eventNarrativeKey, episodeNarrativeKey, rowNumberKey] ∧
      r.length = (parse_malformed_csv content).1.length := by
  intro r hr
  have hP1 : (parse_malformed_csv content).1 =
      F0 ++ [eventNarrativeKey, episodeNarrativeKey, rowNumberKey] := by
    rw [parse_malformed_csv] at *
    exact hF
  set F := F0 ++ [eventNarrativeKey, episodeNarrativeKey, rowNumberKey] with hFdef
  have htake : F.take (F.length - 3) = F0 := by
    have hlen3 : F.length = F0.length + 3 := by simp [hFdef]
    rw [hlen3]
    simp only [Nat.add_sub_cancel]
    rw [hFdef]
    exact List.take_left F0 _
  have hsplitdup := List.nodup_append.mp hnodup
  have hkeys : r.map Prod.fst = F := by
    simp only [parse_malformed_csv] at hr
    rw [List.mem_filterMap] at hr
    obtain ⟨raw, hraw, hparse⟩ := hr
    rw [hF] at hparse
    rw [parse_single_record] at hparse
    by_cases hlen1 : (splitOnChar '\n' raw).length = 1
    · rw [if_pos hlen1] at hparse
      exact parse_single_line_record_keys raw F r hnodup hparse
    · rw [if_neg hlen1] at hparse
      rcases hds : trailingDigits ((splitOnChar '\n' raw).getLastD []) with _ | ds
      · simp only [hds] at hparse
        exact absurd hparse (by simp)
      · simp only [hds] at hparse
        rcases hm : markerPos ((splitOnChar '\n' raw).headD []) with _ | m
        · simp only [hm] at hparse
          exact parse_single_line_record_keys _ F r hnodup hparse
        · simp only [hm] at hparse
          have hr2 := Option.some.inj hparse
          set B := buildStructured F (parse_csv_fields
            (((splitOnChar '\n' raw).headD []).take m)) with hB
          have hbk : B.map Prod.fst = F0 := by
            rw [hB, buildStructured_keys F _ (by rw [htake]; exact hsplitdup.1), htake]
          have hev : eventNarrativeKey ∉ F0 := by
            intro hmem
            exact hsplitdup.2.2 hmem (by simp)
          have hep : episodeNarrativeKey ∉ F0 := by
            intro hmem
            exact hsplitdup.2.2 hmem (by simp)
          have hrn : rowNumberKey ∉ F0 := by
            intro hmem
            exact hsplitdup.2.2 hmem (by simp)
          have h2 : (dictSet B eventNarrativeKey []).map Prod.fst =
              F0 ++ [eventNarrativeKey] := by
            rw [dictSet_keys,
              if_neg (by simp [any_key_eq_false B _ (by rw [hbk]; exact hev)]), hbk]
          have h3 : (dictSet (dictSet B eventNarrativeKey []) episodeNarrativeKey
              (multiEpisode (splitOnChar '\n' raw) m)).map Prod.fst =
              F0 ++ [eventNarrativeKey, episodeNarrativeKey] := by
            have hnot : episodeNarrativeKey ∉
                (dictSet B eventNarrativeKey []).map Prod.fst := by
              rw [h2]
              intro hmem
              rcases List.mem_append.mp hmem with hmem | hmem
              · exact hep hmem
              · simp only [List.mem_singleton] at hmem
                exact absurd hmem (by decide)
            rw [dictSet_keys, if_neg (by simp [any_key_eq_false _ _ hnot]), h2]
            simp
          have h4 : (dictSet (dictSet (dictSet B eventNarrativeKey [])
              episodeNarrativeKey (multiEpisode (splitOnChar '\n' raw) m))
              rowNumberKey ds).map Prod.fst =
              F0 ++ [eventNarrativeKey, episodeNarrativeKey, rowNumberKey] := by
            have hnot : rowNumberKey ∉
                (dictSet (dictSet B eventNarrativeKey []) episodeNarrativeKey
                  (multiEpisode (splitOnChar '\n' raw) m)).map Prod.fst := by
              rw [h3]
              intro hmem
              rcases List.mem_append.mp hmem with hmem | hmem
              · exact hrn hmem
              · simp only [List.mem_cons, List.mem_singleton] at hmem
                rcases hmem with hmem | hmem
                · exact absurd hmem (by decide)
                · exact absurd hmem (by decide)
            rw [dictSet_keys, if_neg (by simp [any_key_eq_false _ _ hnot]), h3]
            simp
          rw [← hr2]
          have hmE : multiEpisode (splitOnChar '\n' raw) m =
              clean_narrative (cutEndAnchored commaNumSuffix
                (cutEndAnchored quoteCommaNumSuffix (stripLeadingEmptyMarker
                  (((splitOnChar '\n' raw).drop 1).foldl (fun acc l => acc ++ '\n' :: l)
                    (((splitOnChar '\n' raw).headD []).drop (m + 1)))))) := rfl
          rw [← hmE] at *
          exact h4
  refine ⟨hkeys, ?_⟩
  rw [hP1]
  rw [← hkeys]
  simp

/-- Concrete instantiation of the amended C7 on a file with one malformed
span and one well-formed line under the real four-field schema tail. -/
theorem claim_C7_amended_field_count_witness :
    ((parse_malformed_csv
        "A,EVENT_NARRATIVE,EPISODE_NARRATIVE,ABSOLUTE_ROWNUMBER\nx,\"\",\"\nabc \",1\ny,e2,p2,2".data).2.headD
      []).map Prod.fst =
      ["A".data] ++ [eventNarrativeKey, episodeNarrativeKey, rowNumberKey] := by
  have h := claim_C7_amended_field_count
    "A,EVENT_NARRATIVE,EPISODE_NARRATIVE,ABSOLUTE_ROWNUMBER\nx,\"\",\"\nabc \",1\ny,e2,p2,2".data
    ["A".data] (by decide) (by decide)
  exact (h _ (by decide)).1

/-! ## Claim C8 -/

/-- C8 as stated is false: in the default non-strict dialect the reader does
not signal a parse failure on an unterminated quoted line; it accepts the
line and emits the pending field. On the unbalanced line quote-a the reader
returns the field a, parse_csv_fields returns it as the field list, and the
single-line record parser builds a record from it rather than producing no
fields. -/
theorem claim_C8_counterexample :
    csvParseLine "\"a".data = some ["a".data] ∧
    parse_csv_fields "\"a".data = ["a".data] ∧
    parse_single_line_record "\"a".data ["X".data] =
      some [("X".data, "a".data)] := by
  refine ⟨by decide, by decide, by decide⟩

/-- C8 amended: the delimited-field parser returns the exact ordered list of
raw field values for every non-empty newline-free line, including lines with
unterminated or unbalanced quoting, which the non-strict reader accepts by
emitting the pending field; it signals a failure only on empty input, where
the reader yields no row. Both callers absorb that failure without a fatal
error: the single-line record parser produces no record, and
parse_csv_fields falls back to a plain comma split. -/
theorem claim_C8_amended_parser_contract (line : Str) (F : List Str) :
    (line ≠ [] → ∃ vs, csvParseLine line = some vs ∧ parse_csv_fields line = vs) ∧
    csvParseLine [] = none ∧
    parse_single_line_record [] F = none ∧
    parse_csv_fields [] = splitOnChar ',' [] := by
  refine ⟨?_, rfl, rfl, rfl⟩
  intro hne
  refine ⟨csvGo line .startField [] [], ?_, ?_⟩
  · rw [csvParseLine, if_neg hne]
  · rw [parse_csv_fields, csvParseLine, if_neg hne]

/-- Concrete instantiation of the amended C8 at the unbalanced line
quote-a. -/
theorem claim_C8_amended_parser_contract_witness :
    ∃ vs, csvParseLine "\"a".data = some vs ∧ parse_csv_fields "\"a".data = vs :=
  (claim_C8_amended_parser_contract "\"a".data ["X".data]).1 (by decide)

/-! ## Claim C1: the scanner with instrumented closing numbers -/

/-- The boundary scanner of parse_malformed_csv, instrumented: it returns
the closed spans paired with the expectation at which each was closed,
together with the final accumulator. The uninstrumented scanner is its
image under joining and flushing. -/
def scanFullGo (cur : List Str) (expected : Nat) :
    List Str → List (List Str × Nat) × List Str
  | [] => ([], cur)
  | l :: rest =>
    match trailingNum l with
    | some n =>
      if n = expected then
        ((cur ++ [l], expected) :: (scanFullGo [] (expected + 1) rest).1,
          (scanFullGo [] (expected + 1) rest).2)
      else scanFullGo (cur ++ [l]) expected rest
    | none => scanFullGo (cur ++ [l]) expected rest

theorem scanGo_eq_scanFullGo (ls : List Str) : ∀ (cur : List Str) (e : Nat),
    scanGo cur e ls = (scanFullGo cur e ls).1.map (fun p => joinNL p.1) ++
      (if (scanFullGo cur e ls).2 = [] then [] else [joinNL (scanFullGo cur e ls).2]) := by
  induction ls with
  | nil =>
    intro cur e
    rw [scanGo_nil, scanFullGo]
    by_cases h : cur = [] <;> simp [h]
  | cons l rest ih =>
    intro cur e
    rcases htn : trailingNum l with _ | n
    · rw [scanGo_continue_none cur e l rest htn]
      rw [scanFullGo]
      simp only [htn]
      exact ih (cur ++ [l]) e
    · by_cases he : n = e
      · subst he
        rw [scanGo_close cur n l rest htn]
        rw [scanFullGo]
        simp only [htn, if_pos rfl]
        rw [ih [] (n + 1)]
        simp
      · rw [scanGo_continue_wrong cur e l rest n htn he]
        rw [scanFullGo]
        simp only [htn, if_neg he]
        exact ih (cur ++ [l]) e

theorem scanFullGo_nums (ls : List Str) : ∀ (cur : List Str) (e : Nat),
    (scanFullGo cur e ls).1.map Prod.snd =
      List.range' e (scanFullGo cur e ls).1.length := by
  induction ls with
  | nil =>
    intro cur e
    rw [scanFullGo]
    simp [List.range']
  | cons l rest ih =>
    intro cur e
    rcases htn : trailingNum l with _ | n
    · rw [scanFullGo]
      simp only [htn]
      exact ih (cur ++ [l]) e
    · by_cases he : n = e
      · subst he
        rw [scanFullGo]
        simp only [htn, eq_self_iff_true, if_true, List.map_cons, List.length_cons]
        rw [ih [] (n + 1)]
        rfl
      · rw [scanFullGo]
        simp only [htn, if_neg he]
        exact ih (cur ++ [l]) e

theorem scanFullGo_spans (ls : List Str) : ∀ (cur : List Str) (e : Nat),
    ∀ p ∈ (scanFullGo cur e ls).1, p.1 ≠ [] ∧
      trailingNum (p.1.getLastD []) = some p.2 ∧ ∀ x ∈ p.1, x ∈ cur ∨ x ∈ ls := by
  induction ls with
  | nil =>
    intro cur e p hp
    rw [scanFullGo] at hp
    simp at hp
  | cons l rest ih =>
    intro cur e p hp
    rcases htn : trailingNum l with _ | n
    · rw [scanFullGo] at hp
      simp only [htn] at hp
      obtain ⟨h1, h2, h3⟩ := ih (cur ++ [l]) e p hp
      refine ⟨h1, h2, ?_⟩
      intro x hx
      rcases h3 x hx with hx2 | hx2
      · rcases List.mem_append.mp hx2 with hx3 | hx3
        · exact Or.inl hx3
        · simp only [List.mem_singleton] at hx3
          exact Or.inr (by simp [hx3])
      · exact Or.inr (by simp [hx2])
    · by_cases he : n = e
      · subst he
        rw [scanFullGo] at hp
        simp only [htn, if_pos rfl] at hp
        rcases List.mem_cons.mp hp with hp | hp
        · subst hp
          refine ⟨by simp, ?_, ?_⟩
          · rw [show (cur ++ [l]).getLastD [] = l from by simp]
            exact htn
          · intro x hx
            rcases List.mem_append.mp hx with hx | hx
            · exact Or.inl hx
            · simp only [List.mem_singleton] at hx
              exact Or.inr (by simp [hx])
        · obtain ⟨h1, h2, h3⟩ := ih [] (n + 1) p hp
          refine ⟨h1, h2, ?_⟩
          intro x hx
          rcases h3 x hx with hx2 | hx2
          · simp at hx2
          · exact Or.inr (by simp [hx2])
      · rw [scanFullGo] at hp
        simp only [htn, if_neg he] at hp
        obtain ⟨h1, h2, h3⟩ := ih (cur ++ [l]) e p hp
        refine ⟨h1, h2, ?_⟩
        intro x hx
        rcases h3 x hx with hx2 | hx2
        · rcases List.mem_append.mp hx2 with hx3 | hx3
          · exact Or.inl hx3
          · simp only [List.mem_singleton] at hx3
            exact Or.inr (by simp [hx3])
        · exact Or.inr (by simp [hx2])

theorem dictGet_cleanNarrativeField_ne (row : Record) (f k : Str) (h : ¬ k = f) :
    dictGet (cleanNarrativeField row f) k = dictGet row k := by
  rcases hg : dictGet row f with _ | w
  · simp only [cleanNarrativeField, hg]
  · simp only [cleanNarrativeField, hg]
    by_cases hw : w = []
    · rw [if_pos hw]
    · rw [if_neg hw]
      exact dictGet_dictSet_ne row f (clean_narrative w) k h

theorem dictGet_append_right (d1 d2 : Record) (k : Str) (h : ∀ p ∈ d1, ¬ p.1 = k) :
    dictGet (d1 ++ d2) k = dictGet d2 k := by
  induction d1 with
  | nil => simp
  | cons q d1 ih =>
    rw [List.cons_append, dictGet_cons]
    rw [show (q.1 == k) = false from by simpa using h q (by simp)]
    simp only [Bool.false_eq_true, if_false]
    exact ih (fun p hp => h p (by simp [hp]))

theorem dictGet_dictZip_last (F0 : List Str) (k : Str) (vs : List Str)
    (hnodup : (F0 ++ [k]).Nodup) (hlen : (F0 ++ [k]).length = vs.length) :
    dictGet (dictZip (F0 ++ [k]) vs) k = vs.getLast? := by
  have hvs_ne : vs ≠ [] := by
    intro he
    subst he
    simp at hlen
  have hdecomp : vs.dropLast ++ [vs.getLast hvs_ne] = vs :=
    List.dropLast_append_getLast hvs_ne
  have hdl_len : F0.length = vs.dropLast.length := by
    have := List.length_dropLast vs
    simp only [List.length_append, List.length_singleton] at hlen
    omega
  have hzip : (F0 ++ [k]).zip vs =
      F0.zip vs.dropLast ++ [(k, vs.getLast hvs_ne)] := by
    conv_lhs => rw [← hdecomp]
    rw [List.zip_append hdl_len]
    rfl
  have hfst : ((F0 ++ [k]).zip vs).map Prod.fst = F0 ++ [k] :=
    List.map_fst_zip _ vs (by omega)
  rw [dictZip, foldl_dictSet_fresh _ [] (by rw [hfst]; exact hnodup) (by simp),
    List.nil_append, hzip]
  rw [dictGet_append_right _ _ k ?_]
  · rw [dictGet_cons]
    simp only [beq_self_eq_true, if_true]
    rw [List.getLast?_eq_getLast_of_ne_nil hvs_ne]
  · intro p hp hpk
    have hmem : p.1 ∈ (F0.zip vs.dropLast).map Prod.fst :=
      List.mem_map_of_mem Prod.fst hp
    rw [List.map_fst_zip F0 vs.dropLast (by omega), hpk] at hmem
    have hdis := List.nodup_append.mp hnodup
    exact hdis.2.2 hmem (by simp)

theorem filterMap_eq_map_getD (l : List (List Str × Nat)) (f : List Str × Nat → Option Record)
    (h : ∀ x ∈ l, (f x).isSome = true) :
    l.filterMap f = l.map (fun x => (f x).getD []) := by
  induction l with
  | nil => rfl
  | cons x l ih =>
    rw [List.filterMap_cons, List.map_cons]
    rcases hx : f x with _ | r
    · have := h x (by simp)
      rw [hx] at this
      simp at this
    · rw [ih (fun y hy => h y (by simp [hy]))]
      simp

/-- The row-sequence value of the record parsed from one closed span: under
the schema whose distinct field names end in ABSOLUTE_ROWNUMBER, a span
closed at expectation k yields a record whose row-sequence field has
numeric value k, provided the span parses at all, a single-line span
csv-parses with its last field equal to its trailing digit group, and a
multi-line span has a marker on its first line. -/
theorem span_rownum (F0 : List Str) (sp : List Str) (k : Nat)
    (hnodup : (F0 ++ [rowNumberKey]).Nodup)
    (hne : sp ≠ []) (hfree : ∀ x ∈ sp, ('\n' : Char) ∉ x)
    (hlast : trailingNum (sp.getLastD []) = some k)
    (hparse : (parse_single_record (joinNL sp) (F0 ++ [rowNumberKey])).isSome = true)
    (hsingle : sp.length = 1 →
      (csvParseLine (sp.headD [])).map (fun vs => vs.getLast?) =
        some (trailingDigits (sp.headD [])))
    (hfall : 2 ≤ sp.length → markerPos (sp.headD []) ≠ none) :
    natOfDigits ((dictGet ((parse_single_record (joinNL sp) (F0 ++ [rowNumberKey])).getD [])
      rowNumberKey).getD []) = k := by
  set F := F0 ++ [rowNumberKey] with hFdef
  have hsp : splitOnChar '\n' (joinNL sp) = sp := splitOnChar_joinNL sp hne hfree
  obtain ⟨ds, hds, hk⟩ : ∃ ds, trailingDigits (sp.getLastD []) = some ds ∧
      natOfDigits ds = k := by
    rw [trailingNum] at hlast
    rcases htd : trailingDigits (sp.getLastD []) with _ | ds
    · rw [htd] at hlast
      simp at hlast
    · rw [htd] at hlast
      exact ⟨ds, rfl, by simpa using hlast⟩
  rcases hsp_shape : sp with _ | ⟨line, sptail⟩
  · exact absurd hsp_shape hne
  · rw [← hsp_shape]
    by_cases hlen1 : sp.length = 1
    · have hsingle2 := hsingle hlen1
      have hline : sp = [sp.headD []] := by
        rw [hsp_shape]
        rw [hsp_shape] at hlen1
        simp only [List.length_cons] at hlen1
        have : sptail = [] := by
          cases sptail with
          | nil => rfl
          | cons a b => simp at hlen1
        subst this
        rfl
      have hjoin : joinNL sp = sp.headD [] := by
        conv_lhs => rw [hline]
        rw [joinNL, intercalate_singleton]
      rw [parse_single_record, hsp, if_pos hlen1, hjoin] at hparse ⊢
      rcases hcsv : csvParseLine (sp.headD []) with _ | vs
      · rw [parse_single_line_record, hcsv] at hparse
        simp at hparse
      · rw [hcsv] at hsingle2
        rw [Option.map_some'] at hsingle2
        have hvslast : vs.getLast? = some ds := by
          rw [Option.some.inj hsingle2]
          have hhead : sp.getLastD [] = sp.headD [] := by
            conv_lhs => rw [hline]
            rfl
          rw [← hhead, hds]
        rw [parse_single_line_record] at hparse ⊢
        simp only [hcsv] at hparse ⊢
        split_ifs at hparse with hcnt
        · rw [if_pos hcnt]
          simp only [Option.getD_some]
          rw [dictGet_cleanNarrativeField_ne _ _ _ (by decide),
            dictGet_cleanNarrativeField_ne _ _ _ (by decide)]
          rw [hFdef, dictGet_dictZip_last F0 rowNumberKey vs hnodup
            (by rw [← hFdef, ← hcnt])]
          rw [hvslast]
          simpa using hk
        · simp at hparse
    · have hlen2 : 2 ≤ sp.length := by
        rw [hsp_shape]
        rw [hsp_shape] at hlen1
        cases sptail with
        | nil => simp at hlen1
        | cons a b => simp
      have hm := hfall hlen2
      rcases hmp : markerPos (sp.headD []) with _ | m
      · exact absurd hmp hm
      · have hlast2 : trailingDigits ((splitOnChar '\n' (joinNL sp)).getLastD []) = some ds := by
          rw [hsp]
          exact hds
        have hm2 : markerPos ((splitOnChar '\n' (joinNL sp)).headD []) = some m := by
          rw [hsp]
          exact hmp
        rw [parse_single_record_multi (joinNL sp) F ds m (by rw [hsp]; omega) hlast2 hm2]
        simp only [Option.getD_some]
        rw [dictGet_dictSet_self]
        simpa using hk

/-- C1 as stated is false: a closed span whose record-level parse fails is
silently dropped, leaving a gap in the output sequence. With header A and
ABSOLUTE_ROWNUMBER, the line x-y-1 closes the span for expectation 1 but
carries three fields against a two-field schema, so it yields no record,
and the only output record carries row number 2: the output sequence is 2,
not 1..N. -/
theorem claim_C1_counterexample :
    (parse_malformed_csv "A,ABSOLUTE_ROWNUMBER\nx,y,1\na,2".data).2.map
        (fun r => natOfDigits ((dictGet r rowNumberKey).getD [])) ≠
      List.range' 1
        (parse_malformed_csv "A,ABSOLUTE_ROWNUMBER\nx,y,1\na,2".data).2.length := by
  decide

/-- C1 amended: provided the scanner leaves no unclosed final accumulator,
every closed span parses to a record, every single-line closed span
csv-parses with its last field equal to its trailing digit group, every
multi-line closed span has a marker on its first line, and the header
declares distinct names ending in ABSOLUTE_ROWNUMBER, the numeric row
sequence values of the output records form exactly the contiguous range
1..N in increasing order, where N is the number of output records. Without
those provisos a dropped record leaves a gap, a leftover flush can append a
record with an arbitrary trailing number, and a single-line record takes
its row number from positional parsing, which can disagree with the
boundary digits. -/
theorem claim_C1_amended_row_sequence (content : Str) (F0 : List Str)
    (hF : splitOnChar ',' ((splitOnChar '\n' (normalizeContent content)).headD []) =
      F0 ++ [rowNumberKey])
    (hnodup : (F0 ++ [rowNumberKey]).Nodup)
    (hleft : (scanFullGo [] 1 ((splitOnChar '\n' (normalizeContent content)).drop 1)).2 = [])
    (hparse : ∀ p ∈ (scanFullGo [] 1
        ((splitOnChar '\n' (normalizeContent content)).drop 1)).1,
      (parse_single_record (joinNL p.1) (F0 ++ [rowNumberKey])).isSome = true)
    (hsingle : ∀ p ∈ (scanFullGo [] 1
        ((splitOnChar '\n' (normalizeContent content)).drop 1)).1, p.1.length = 1 →
      (csvParseLine (p.1.headD [])).map (fun vs => vs.getLast?) =
        some (trailingDigits (p.1.headD [])))
    (hfall : ∀ p ∈ (scanFullGo [] 1
        ((splitOnChar '\n' (normalizeContent content)).drop 1)).1, 2 ≤ p.1.length →
      markerPos (p.1.headD []) ≠ none) :
    (parse_malformed_csv content).2.map
        (fun r => natOfDigits ((dictGet r rowNumberKey).getD [])) =
      List.range' 1 (parse_malformed_csv content).2.length := by
  set ls := (splitOnChar '\n' (normalizeContent content)).drop 1 with hls
  set F := F0 ++ [rowNumberKey] with hFdef
  have hrows : (parse_malformed_csv content).2 =
      (scanFullGo [] 1 ls).1.filterMap
        (fun p => parse_single_record (joinNL p.1) F) := by
    simp only [parse_malformed_csv]
    rw [hF, scanLines, scanGo_eq_scanFullGo, ← hls, hleft]
    simp [List.filterMap_map, Function.comp]
    rfl
  rw [hrows]
  rw [filterMap_eq_map_getD _ _ hparse]
  rw [List.map_map]
  have hfree_ls : ∀ l ∈ ls, ('\n' : Char) ∉ l := fun l hl =>
    splitOnChar_sep_free '\n' (normalizeContent content) l (List.mem_of_mem_drop hl)
  have hmapeq : (scanFullGo [] 1 ls).1.map
      ((fun r => natOfDigits ((dictGet r rowNumberKey).getD [])) ∘
        (fun p => (parse_single_record (joinNL p.1) F).getD [])) =
      (scanFullGo [] 1 ls).1.map Prod.snd := by
    refine List.map_congr_left ?_
    intro p hp
    obtain ⟨h1, h2, h3⟩ := scanFullGo_spans ls [] 1 p hp
    have hfree_sp : ∀ x ∈ p.1, ('\n' : Char) ∉ x := by
      intro x hx
      rcases h3 x hx with hx2 | hx2
      · simp at hx2
      · exact hfree_ls x hx2
    exact span_rownum F0 p.1 p.2 hnodup h1 hfree_sp h2 (hparse p hp)
      (hsingle p hp) (hfall p hp)
  rw [hmapeq, scanFullGo_nums ls [] 1]
  simp

/-- Concrete instantiation of the amended C1 on a two-record well-formed
file: the output row sequence is exactly 1, 2. -/
theorem claim_C1_amended_row_sequence_witness :
    (parse_malformed_csv "A,ABSOLUTE_ROWNUMBER\nx,1\ny,2".data).2.map
        (fun r => natOfDigits ((dictGet r rowNumberKey).getD [])) =
      List.range' 1
        (parse_malformed_csv "A,ABSOLUTE_ROWNUMBER\nx,1\ny,2".data).2.length :=
  claim_C1_amended_row_sequence "A,ABSOLUTE_ROWNUMBER\nx,1\ny,2".data ["A".data]
    (by decide) (by decide) (by decide) (by decide) (by decide) (by decide)

/-! ## Claim C6: the writer and reader round trip -/

/-- One serialized row without its line terminator. -/
def rowBody (vs : List Str) : Str :=
  List.intercalate [','] (vs.map csvQuoteMinimal)

theorem writeRow_eq_rowBody (vs : List Str) :
    writeRow vs = rowBody vs ++ ['\r', '\n'] := rfl

theorem csvGo_plain_field (v : Str) (hv : ∀ c ∈ v, ¬ c = ',' ∧ ¬ c = '\"') :
    ∀ (t : Str) (fields : List Str) (cur : Str),
    csvGo (v ++ t) .inField fields cur = csvGo t .inField fields (cur ++ v) := by
  induction v with
  | nil => simp
  | cons c v ih =>
    intro t fields cur
    have hc := hv c (by simp)
    rw [List.cons_append, csvGo, if_neg hc.1]
    rw [ih (fun d hd => hv d (by simp [hd])) t fields (cur ++ [c])]
    simp

theorem csvGo_plain_field_end (v : Str) (hv : ∀ c ∈ v, ¬ c = ',' ∧ ¬ c = '\"') :
    ∀ (fields : List Str) (cur : Str),
    csvGo v .inField fields cur = fields ++ [cur ++ v] := by
  induction v with
  | nil =>
    intro fields cur
    rw [csvGo]
    simp
  | cons c v ih =>
    intro fields cur
    have hc := hv c (by simp)
    rw [csvGo, if_neg hc.1]
    rw [ih (fun d hd => hv d (by simp [hd])) fields (cur ++ [c])]
    simp

theorem csvGo_quoted_body (w : Str) :
    ∀ (t : Str) (fields : List Str) (cur : Str),
    csvGo (escapeQuotes w ++ t) .inQuoted fields cur = csvGo t .inQuoted fields (cur ++ w) := by
  induction w with
  | nil => simp [escapeQuotes]
  | cons c w ih =>
    intro t fields cur
    by_cases hc : c = '\"'
    · subst hc
      rw [show escapeQuotes ('\"' :: w) = '\"' :: '\"' :: escapeQuotes w from by
        simp [escapeQuotes]]
      rw [List.cons_append, List.cons_append, csvGo, if_pos rfl, csvGo, if_pos rfl]
      rw [ih t fields (cur ++ ['\"'])]
      simp
    · rw [show escapeQuotes (c :: w) = c :: escapeQuotes w from by
        simp [escapeQuotes, hc]]
      rw [List.cons_append, csvGo, if_neg hc]
      rw [ih t fields (cur ++ [c])]
      simp

theorem csvGo_one_field_sep (v : Str) (hfree : ('\n' : Char) ∉ v ∧ ('\r' : Char) ∉ v)
    (t : Str) (fields : List Str) :
    csvGo (csvQuoteMinimal v ++ ',' :: t) .startField fields [] =
      csvGo t .startField (fields ++ [v]) [] := by
  rw [csvQuoteMinimal]
  by_cases hq : needsQuoting v = true
  · rw [if_pos hq]
    rw [show ('\"' :: (escapeQuotes v ++ ['\"'])) ++ ',' :: t =
      '\"' :: (escapeQuotes v ++ ('\"' :: ',' :: t)) from by simp]
    rw [csvGo, if_pos rfl]
    rw [csvGo_quoted_body v _ fields []]
    rw [csvGo, if_pos rfl]
    rw [csvGo, if_neg (by decide), if_pos rfl]
    simp
  · rw [if_neg hq]
    have hplain : ∀ c ∈ v, ¬ c = ',' ∧ ¬ c = '\"' := by
      intro c hc
      rw [needsQuoting] at hq
      simp only [List.any_eq_true, not_exists, not_and] at hq
      have := hq c hc
      constructor
      · intro he
        rw [he] at this
        simp at this
      · intro he
        rw [he] at this
        simp at this
    cases v with
    | nil =>
      rw [List.nil_append, csvGo, if_neg (by decide), if_pos rfl]
    | cons c v =>
      have hc := hplain c (by simp)
      rw [List.cons_append, csvGo, if_neg hc.2, if_neg hc.1]
      simp only [List.nil_append]
      rw [csvGo_plain_field v (fun d hd => hplain d (by simp [hd])) _ fields [c]]
      rw [csvGo, if_pos rfl]
      simp

theorem csvGo_one_field_end (v : Str) (hfree : ('\n' : Char) ∉ v ∧ ('\r' : Char) ∉ v)
    (fields : List Str) :
    csvGo (csvQuoteMinimal v) .startField fields [] = fields ++ [v] := by
  rw [csvQuoteMinimal]
  by_cases hq : needsQuoting v = true
  · rw [if_pos hq]
    rw [csvGo, if_pos rfl]
    rw [csvGo_quoted_body v ['\"'] fields []]
    simp only [List.nil_append]
    rw [csvGo, if_pos rfl]
    rw [csvGo]
  · rw [if_neg hq]
    have hplain : ∀ c ∈ v, ¬ c = ',' ∧ ¬ c = '\"' := by
      intro c hc
      rw [needsQuoting] at hq
      simp only [List.any_eq_true, not_exists, not_and] at hq
      have := hq c hc
      constructor
      · intro he
        rw [he] at this
        simp at this
      · intro he
        rw [he] at this
        simp at this
    cases v with
    | nil => rw [csvGo]
    | cons c v =>
      have hc := hplain c (by simp)
      rw [csvGo, if_neg hc.2, if_neg hc.1]
      simp only [List.nil_append]
      rw [csvGo_plain_field_end v (fun d hd => hplain d (by simp [hd])) fields [c]]
      rfl

theorem csvGo_rowBody (vs : List Str) (hne : vs ≠ [])
    (hfree : ∀ v ∈ vs, ('\n' : Char) ∉ v ∧ ('\r' : Char) ∉ v) :
    ∀ fields : List Str, csvGo (rowBody vs) .startField fields [] = fields ++ vs := by
  induction vs with
  | nil => exact absurd rfl hne
  | cons v vs ih =>
    intro fields
    cases vs with
    | nil =>
      rw [rowBody, List.map_cons, List.map_nil, intercalate_singleton]
      exact csvGo_one_field_end v (hfree v (by simp)) fields
    | cons w ws =>
      rw [rowBody, List.map_cons, List.map_cons, intercalate_cons2]
      rw [csvGo_one_field_sep v (hfree v (by simp)) _ fields]
      rw [show List.intercalate [','] (csvQuoteMinimal w :: ws.map csvQuoteMinimal) =
        rowBody (w :: ws) from rfl]
      rw [ih (by simp) (fun x hx => hfree x (by simp [hx])) (fields ++ [v])]
      simp

/-- The reader inverts the writer on one line: parsing the serialized row of
a non-empty list of newline-free values recovers exactly those values. -/
theorem csvParseLine_rowBody (vs : List Str) (hne2 : 2 ≤ vs.length)
    (hfree : ∀ v ∈ vs, ('\n' : Char) ∉ v ∧ ('\r' : Char) ∉ v) :
    csvParseLine (rowBody vs) = some vs := by
  have hne : vs ≠ [] := by
    intro he
    subst he
    simp at hne2
  have hbody_ne : rowBody vs ≠ [] := by
    rcases vs with _ | ⟨v, _ | ⟨w, ws⟩⟩
    · exact absurd rfl hne
    · simp at hne2
    · rw [rowBody, List.map_cons, List.map_cons, intercalate_cons2]
      intro he
      have : (',' : Char) ∈ (csvQuoteMinimal v ++ ',' ::
          List.intercalate [','] (csvQuoteMinimal w :: ws.map csvQuoteMinimal)) := by simp
      rw [he] at this
      simp at this
  rw [csvParseLine, if_neg hbody_ne, csvGo_rowBody vs hne hfree []]
  rfl

theorem pyReplace_append_head_not_mem (h0 : Char) (t0 new : Str) (l : Str)
    (hl : h0 ∉ l) (t : Str) :
    pyReplace (h0 :: t0) new (l ++ t) = l ++ pyReplace (h0 :: t0) new t := by
  induction l with
  | nil => simp
  | cons c l ih =>
    simp only [List.mem_cons, not_or] at hl
    rw [List.cons_append, pyReplace_cons_neg (h0 :: t0) new c (l ++ t) (by simp) ?_]
    · rw [ih hl.2]; simp
    · intro hpre
      simp only [List.isPrefixOf, Bool.and_eq_true, beq_iff_eq] at hpre
      exact hl.1 hpre.1

theorem pyReplace_crlf_step (t : Str) :
    pyReplace ['\r', '\n'] ['\n'] ('\r' :: '\n' :: t) =
      '\n' :: pyReplace ['\r', '\n'] ['\n'] t := by
  rw [pyReplace_cons_pos ['\r', '\n'] ['\n'] '\r' ('\n' :: t) (by simp)
    (by simp [List.isPrefixOf])]
  rfl

theorem pyReplace_single_id (c : Char) (new : Str) (t : Str) (h : c ∉ t) :
    pyReplace [c] new t = t := by
  induction t with
  | nil => rfl
  | cons d t ih =>
    simp only [List.mem_cons, not_or] at h
    rw [pyReplace_cons_neg [c] new d t (by simp) ?_]
    · rw [ih h.2]
    · intro hpre
      simp only [List.isPrefixOf, Bool.and_eq_true, beq_iff_eq] at hpre
      exact h.1 hpre.1

/-- Normalizing the carriage-return-newline terminated output of the writer
gives the same lines terminated by bare newlines. -/
theorem normalizeContent_crlf_lines (LS : List Str)
    (hfree : ∀ l ∈ LS, ('\n' : Char) ∉ l ∧ ('\r' : Char) ∉ l) :
    normalizeContent ((LS.map (fun l => l ++ ['\r', '\n'])).flatten) =
      (LS.map (fun l => l ++ ['\n'])).flatten := by
  have step1 : pyReplace ['\r', '\n'] ['\n'] ((LS.map (fun l => l ++ ['\r', '\n'])).flatten) =
      (LS.map (fun l => l ++ ['\n'])).flatten := by
    induction LS with
    | nil => rfl
    | cons l LS ih =>
      simp only [List.map_cons, List.flatten_cons]
      rw [show (l ++ ['\r', '\n']) ++ (LS.map (fun l => l ++ ['\r', '\n'])).flatten =
        l ++ ('\r' :: '\n' :: (LS.map (fun l => l ++ ['\r', '\n'])).flatten) from by simp]
      rw [pyReplace_append_head_not_mem '\r' ['\n'] ['\n'] l (hfree l (by simp)).2]
      rw [pyReplace_crlf_step]
      rw [ih (fun x hx => hfree x (by simp [hx]))]
      simp
  have hnor : ('\r' : Char) ∉ (LS.map (fun l => l ++ ['\n'])).flatten := by
    intro hmem
    rw [List.mem_flatten] at hmem
    obtain ⟨piece, hpiece, hmem2⟩ := hmem
    rw [List.mem_map] at hpiece
    obtain ⟨l, hl, rfl⟩ := hpiece
    rcases List.mem_append.mp hmem2 with h | h
    · exact (hfree l hl).2 h
    · simp at h
  rw [normalizeContent, step1, pyReplace_single_id '\r' ['\n'] _ hnor]

theorem splitOnChar_flatten_nl (LS : List Str) (hfree : ∀ l ∈ LS, ('\n' : Char) ∉ l) :
    splitOnChar '\n' ((LS.map (fun l => l ++ ['\n'])).flatten) = LS ++ [[]] := by
  induction LS with
  | nil => simp [splitOnChar]
  | cons l LS ih =>
    simp only [List.map_cons, List.flatten_cons]
    rw [show (l ++ ['\n']) ++ (LS.map (fun l => l ++ ['\n'])).flatten =
      l ++ '\n' :: (LS.map (fun l => l ++ ['\n'])).flatten from by simp]
    rw [splitOnChar_append_sep '\n' l _ (hfree l (by simp))]
    rw [ih (fun x hx => hfree x (by simp [hx]))]
    rfl

/-- The scanner on a run of lines whose trailing numbers are consecutive
from the expectation, followed by one final empty line: every line closes
its own span and the empty line is flushed as a final empty raw record. -/
theorem scanGo_all_close (LS : List Str) : ∀ e : Nat,
    (∀ i (hi : i < LS.length), trailingNum (LS.get ⟨i, hi⟩) = some (e + i)) →
    scanGo [] e (LS ++ [[]]) = LS ++ [[]] := by
  induction LS with
  | nil =>
    intro e _
    rw [List.nil_append, scanGo_continue_none [] e [] [] (by rfl)]
    rw [scanGo_nil, if_neg (by simp)]
    rfl
  | cons l LS ih =>
    intro e h
    have h0 : trailingNum l = some e := by
      have := h 0 (by simp)
      simpa using this
    rw [List.cons_append, scanGo_close [] e l (LS ++ [[]]) h0]
    rw [ih (e + 1) ?_]
    · rw [show joinNL ([] ++ [l]) = l from by simp [joinNL, List.intercalate]]
    · intro i hi
      have := h (i + 1) (by simpa using hi)
      rw [show LS.get ⟨i, hi⟩ = (l :: LS).get ⟨i + 1, by simpa using hi⟩ from rfl]
      rw [this]
      congr 1
      omega

theorem intercalate_append_singleton (sep : Char) (as : List Str) (b : Str) (h : as ≠ []) :
    List.intercalate [sep] (as ++ [b]) = List.intercalate [sep] as ++ sep :: b := by
  induction as with
  | nil => exact absurd rfl h
  | cons a as ih =>
    cases as with
    | nil =>
      rw [List.cons_append, List.nil_append, intercalate_cons2, intercalate_singleton,
        intercalate_singleton]
    | cons a2 as2 =>
      have h1 : (a :: a2 :: as2) ++ [b] = a :: (a2 :: (as2 ++ [b])) := rfl
      have h2 : a2 :: (as2 ++ [b]) = (a2 :: as2) ++ [b] := rfl
      rw [h1, intercalate_cons2, h2, ih (by simp)]
      conv_rhs => rw [intercalate_cons2]
      simp

theorem mem_intercalate_sep (sep : Char) (ps : List Str) (x : Char)
    (hx : x ∈ List.intercalate [sep] ps) : (∃ p ∈ ps, x ∈ p) ∨ x = sep := by
  induction ps with
  | nil => simp [List.intercalate] at hx
  | cons p rest ih =>
    cases rest with
    | nil =>
      rw [intercalate_singleton] at hx
      exact Or.inl ⟨p, by simp, hx⟩
    | cons q qs =>
      rw [intercalate_cons2] at hx
      rcases List.mem_append.mp hx with h | h
      · exact Or.inl ⟨p, by simp, h⟩
      · rcases List.mem_cons.mp h with h | h
        · exact Or.inr h
        · rcases ih h with ⟨r, hr, hxr⟩ | h
          · exact Or.inl ⟨r, by simp [hr], hxr⟩
          · exact Or.inr h

theorem mem_escapeQuotes (v : Str) (c : Char) (h : c ∈ escapeQuotes v) :
    c ∈ v ∨ c = '\"' := by
  induction v with
  | nil => simp [escapeQuotes] at h
  | cons d v ih =>
    rw [escapeQuotes, List.foldr_cons] at h
    by_cases hd : d = '\"'
    · rw [if_pos hd] at h
      rcases List.mem_cons.mp h with h | h
      · exact Or.inr h
      · rcases List.mem_cons.mp h with h | h
        · exact Or.inr h
        · rcases ih h with h | h
          · exact Or.inl (by simp [h])
          · exact Or.inr h
    · rw [if_neg hd] at h
      rcases List.mem_cons.mp h with h | h
      · exact Or.inl (by simp [h])
      · rcases ih h with h | h
        · exact Or.inl (by simp [h])
        · exact Or.inr h

theorem mem_csvQuoteMinimal (v : Str) (c : Char) (h : c ∈ csvQuoteMinimal v) :
    c ∈ v ∨ c = '\"' := by
  rw [csvQuoteMinimal] at h
  by_cases hq : needsQuoting v
  · rw [if_pos hq] at h
    rcases List.mem_cons.mp h with h | h
    · exact Or.inr h
    · rcases List.mem_append.mp h with h | h
      · exact mem_escapeQuotes v c h
      · exact Or.inr (by simpa using h)
  · rw [if_neg hq] at h
    exact Or.inl h

/-- Character provenance of one serialized row: every character is a comma,
a quote, or a character of one of the field values. -/
theorem mem_rowBody (vs : List Str) (c : Char) (h : c ∈ rowBody vs) :
    c = ',' ∨ c = '\"' ∨ ∃ v ∈ vs, c ∈ v := by
  rcases mem_intercalate_sep ',' (vs.map csvQuoteMinimal) c h with ⟨p, hp, hcp⟩ | h
  · rw [List.mem_map] at hp
    obtain ⟨v, hv, rfl⟩ := hp
    rcases mem_csvQuoteMinimal v c hcp with h | h
    · exact Or.inr (Or.inr ⟨v, hv, h⟩)
    · exact Or.inr (Or.inl h)
  · exact Or.inl h

theorem needsQuoting_eq_false (v : Str)
    (h : ∀ c ∈ v, ¬c = ',' ∧ ¬c = '\"' ∧ ¬c = '\n' ∧ ¬c = '\r') :
    needsQuoting v = false := by
  rw [needsQuoting, List.any_eq_false]
  intro c hc
  obtain ⟨h1, h2, h3, h4⟩ := h c hc
  simp [h1, h2, h3, h4]

theorem csvQuoteMinimal_plain (v : Str)
    (h : ∀ c ∈ v, ¬c = ',' ∧ ¬c = '\"' ∧ ¬c = '\n' ∧ ¬c = '\r') :
    csvQuoteMinimal v = v := by
  rw [csvQuoteMinimal, needsQuoting_eq_false v h]
  rfl

theorem isDigit_not_special (d : Char) (h : d.isDigit = true) :
    ¬d = ',' ∧ ¬d = '\"' ∧ ¬d = '\n' ∧ ¬d = '\r' := by
  refine ⟨?_, ?_, ?_, ?_⟩ <;> (rintro rfl; exact absurd h (by decide))

theorem dictGet_mem_self (r : Record) (hnodup : (r.map Prod.fst).Nodup) :
    ∀ p ∈ r, dictGet r p.1 = some p.2 := by
  induction r with
  | nil => simp
  | cons q r ih =>
    simp only [List.map_cons, List.nodup_cons] at hnodup
    intro p hp
    rcases List.mem_cons.mp hp with rfl | hp
    · rw [dictGet_cons, if_pos (by simp)]
    · rw [dictGet_cons, if_neg ?_]
      · exact ih hnodup.2 p hp
      · simp only [beq_iff_eq]
        intro he
        exact hnodup.1 (he ▸ List.mem_map_of_mem Prod.fst hp)

theorem dictSet_same (r : Record) (k v : Str) (h : dictGet r k = some v) :
    dictSet r k v = r := by
  induction r with
  | nil => simp [dictGet] at h
  | cons q r ih =>
    rw [dictGet_cons] at h
    by_cases hq : (q.1 == k) = true
    · rw [if_pos hq] at h
      rw [dictSet, if_pos hq]
      have h1 : k = q.1 := (beq_iff_eq.mp hq).symm
      have h2 : v = q.2 := (Option.some.inj h).symm
      rw [h1, h2]
    · rw [if_neg hq] at h
      rw [dictSet, if_neg hq, ih h]

theorem cleanNarrativeField_fix (r : Record) (f : Str)
    (h : (dictGet r f).map clean_narrative = dictGet r f) :
    cleanNarrativeField r f = r := by
  rcases hg : dictGet r f with _ | v
  · simp only [cleanNarrativeField, hg]
  · simp only [cleanNarrativeField, hg]
    rw [hg, Option.map_some'] at h
    have hcv : clean_narrative v = v := Option.some.inj h
    by_cases hv : v = []
    · rw [if_pos hv]
    · rw [if_neg hv, hcv, dictSet_same r f v hg]

theorem map_dictGet_values (r : Record) (hnodup : (r.map Prod.fst).Nodup) :
    (r.map Prod.fst).map (fun f => (dictGet r f).getD []) = r.map Prod.snd := by
  rw [List.map_map]
  apply List.map_congr_left
  intro p hp
  simp only [Function.comp_apply]
  rw [dictGet_mem_self r hnodup p hp]
  rfl

theorem zip_fst_snd (r : Record) : (r.map Prod.fst).zip (r.map Prod.snd) = r := by
  induction r with
  | nil => rfl
  | cons p r ih => simp [ih]

theorem dictZip_self (r : Record) (hnodup : (r.map Prod.fst).Nodup) :
    dictZip (r.map Prod.fst) (r.map Prod.snd) = r := by
  rw [dictZip, zip_fst_snd]
  rw [foldl_dictSet_fresh r [] ?_ (by simp)]
  · simp
  · simpa using hnodup

/-- The single-line parser reproduces a record from its own serialized row
when the record's keys are the schema in order and its narrative values are
fixed points of the cleaner. -/
theorem parse_single_line_record_roundtrip (F : List Str) (r : Record)
    (hF : 2 ≤ F.length) (hnodup : F.Nodup) (hkeys : r.map Prod.fst = F)
    (hvfree : ∀ p ∈ r, ('\n' : Char) ∉ p.2 ∧ ('\r' : Char) ∉ p.2)
    (hclean : ∀ g ∈ [eventNarrativeKey, episodeNarrativeKey],
        (dictGet r g).map clean_narrative = dictGet r g) :
    parse_single_line_record (rowBody (r.map Prod.snd)) F = some r := by
  have hlen : (r.map Prod.snd).length = F.length := by
    rw [List.length_map, ← hkeys, List.length_map]
  have hparse : csvParseLine (rowBody (r.map Prod.snd)) = some (r.map Prod.snd) := by
    apply csvParseLine_rowBody
    · omega
    · intro v hv
      rw [List.mem_map] at hv
      obtain ⟨p, hp, rfl⟩ := hv
      exact hvfree p hp
  simp only [parse_single_line_record, hparse, hlen, if_pos rfl]
  have hzip : dictZip F (r.map Prod.snd) = r := by
    rw [← hkeys, dictZip_self r (by rw [hkeys]; exact hnodup)]
  rw [hzip]
  rw [cleanNarrativeField_fix r eventNarrativeKey (hclean _ (by simp))]
  rw [cleanNarrativeField_fix r episodeNarrativeKey (hclean _ (by simp))]
  exact if_pos trivial

theorem parse_single_record_of_single_line (l : Str) (F : List Str)
    (h : ('\n' : Char) ∉ l) :
    parse_single_record l F = parse_single_line_record l F := by
  rw [parse_single_record]
  simp only [splitOnChar_of_sep_free '\n' l h, List.length_singleton]
  exact if_pos trivial

theorem parse_single_record_nil (F : List Str) : parse_single_record [] F = none := by
  rw [parse_single_record_of_single_line [] F (by simp)]
  rw [parse_single_line_record]
  simp [csvParseLine]

theorem rowBody_free (vs : List Str) (hv : ∀ v ∈ vs, ('\n' : Char) ∉ v ∧ ('\r' : Char) ∉ v) :
    ('\n' : Char) ∉ rowBody vs ∧ ('\r' : Char) ∉ rowBody vs := by
  constructor <;> intro hmem
  · rcases mem_rowBody vs '\n' hmem with h | h | ⟨v, hv2, hc⟩
    · exact absurd h (by decide)
    · exact absurd h (by decide)
    · exact (hv v hv2).1 hc
  · rcases mem_rowBody vs '\r' hmem with h | h | ⟨v, hv2, hc⟩
    · exact absurd h (by decide)
    · exact absurd h (by decide)
    · exact (hv v hv2).2 hc

theorem filterMap_eq_self (L : List Record) (f : Record → Option Record)
    (h : ∀ x ∈ L, f x = some x) : L.filterMap f = L := by
  induction L with
  | nil => rfl
  | cons x L ih =>
    rw [List.filterMap_cons, h x (by simp), ih (fun y hy => h y (by simp [hy]))]

/-- The serialized row of a record whose last schema field is the row-number
key carries that record's row-number value as its trailing digit group. -/
theorem trailingNum_written_row (F : List Str) (r : Record) (n : Nat)
    (hF : 2 ≤ F.length) (hlast : F.getLast? = some rowNumberKey)
    (h1 : (dictGet r rowNumberKey).getD [] ≠ [])
    (h2 : ∀ d ∈ (dictGet r rowNumberKey).getD [], d.isDigit = true)
    (h3 : natOfDigits ((dictGet r rowNumberKey).getD []) = n) :
    trailingNum (rowBody (F.map (fun f => (dictGet r f).getD []))) = some n := by
  have hne : F ≠ [] := by intro h; rw [h] at hF; simp at hF
  have hglast : F.getLast hne = rowNumberKey := by
    have hg := List.getLast?_eq_getLast F hne
    rw [hlast] at hg
    exact (Option.some.inj hg).symm
  have hFdecomp : F.dropLast ++ [rowNumberKey] = F := by
    rw [← hglast]
    exact List.dropLast_append_getLast hne
  have hmap : F.map (fun f => (dictGet r f).getD []) =
      F.dropLast.map (fun f => (dictGet r f).getD []) ++ [(dictGet r rowNumberKey).getD []] := by
    conv_lhs => rw [← hFdecomp]
    rw [List.map_append]
    rfl
  have hlen0 : (F.dropLast.map (fun f => (dictGet r f).getD [])).map csvQuoteMinimal ≠ [] := by
    apply List.ne_nil_of_length_pos
    rw [List.length_map, List.length_map, List.length_dropLast]
    omega
  have hquote : csvQuoteMinimal ((dictGet r rowNumberKey).getD []) =
      (dictGet r rowNumberKey).getD [] :=
    csvQuoteMinimal_plain _ (fun c hc => isDigit_not_special c (h2 c hc))
  have hline : rowBody (F.map (fun f => (dictGet r f).getD [])) =
      rowBody (F.dropLast.map (fun f => (dictGet r f).getD [])) ++
        ',' :: (dictGet r rowNumberKey).getD [] := by
    rw [hmap, rowBody, List.map_append, List.map_singleton, hquote,
      intercalate_append_singleton ',' _ _ hlen0]
    rfl
  have htd : trailingDigits (rowBody (F.map (fun f => (dictGet r f).getD []))) =
      some ((dictGet r rowNumberKey).getD []) :=
    (trailingDigits_eq_some_iff _ _).mpr ⟨_, ',', hline, Or.inl rfl, h1, h2⟩
  rw [trailingNum, htd, Option.map_some', h3]

/-- C6, amended: the transform is a fixed point on well-formed output, but
only record-for-record under the clean-value provisos. Whenever the schema
has at least two pairwise distinct fields of ordinary characters ending in
ABSOLUTE_ROWNUMBER, every record carries exactly the schema's keys in order
with newline-free and carriage-return-free values, the two narrative values
are fixed points of the narrative cleaner, and the i-th record's row number
is the digit string with value i+1, then writing the records with fix_csv
and re-running the parser reproduces the schema and the records exactly,
field for field. (The unamended claim, running the transform on arbitrary
prior output, fails: a narrative value with trailing whitespace is written
unquoted and the second run's cleaner strips it, see the counterexample.) -/
theorem claim_C6_amended_output_fixed_point (F : List Str) (R : List Record)
    (hF : 2 ≤ F.length)
    (hlast : F.getLast? = some rowNumberKey)
    (hnodup : F.Nodup)
    (hFchars : ∀ f ∈ F, ∀ c ∈ f, ¬c = ',' ∧ ¬c = '\"' ∧ ¬c = '\n' ∧ ¬c = '\r')
    (hkeys : ∀ r ∈ R, r.map Prod.fst = F)
    (hvfree : ∀ r ∈ R, ∀ p ∈ r, ('\n' : Char) ∉ p.2 ∧ ('\r' : Char) ∉ p.2)
    (hclean : ∀ r ∈ R, ∀ g ∈ [eventNarrativeKey, episodeNarrativeKey],
        (dictGet r g).map clean_narrative = dictGet r g)
    (hrow : ∀ i (hi : i < R.length),
        (dictGet (R.get ⟨i, hi⟩) rowNumberKey).getD [] ≠ [] ∧
        (∀ d ∈ (dictGet (R.get ⟨i, hi⟩) rowNumberKey).getD [], d.isDigit = true) ∧
        natOfDigits ((dictGet (R.get ⟨i, hi⟩) rowNumberKey).getD []) = i + 1) :
    ∃ out, write_csv F R = some out ∧ parse_malformed_csv out = (F, R) := by
  have hne : F ≠ [] := by intro h; rw [h] at hF; simp at hF
  have hsub : R.all (fun r => r.all (fun p => F.contains p.1)) = true := by
    rw [List.all_eq_true]
    intro r hr
    rw [List.all_eq_true]
    intro p hp
    have hmem : p.1 ∈ F := by
      rw [← hkeys r hr]
      exact List.mem_map_of_mem Prod.fst hp
    simpa using hmem
  have hvals : ∀ r ∈ R, F.map (fun f => (dictGet r f).getD []) = r.map Prod.snd := by
    intro r hr
    rw [← hkeys r hr]
    exact map_dictGet_values r (by rw [hkeys r hr]; exact hnodup)
  refine ⟨writeRow F ++
    (R.map (fun r => writeRow (F.map (fun f => (dictGet r f).getD [])))).flatten, ?_, ?_⟩
  · rw [write_csv, if_pos hsub]
  · have hout : writeRow F ++
        (R.map (fun r => writeRow (F.map (fun f => (dictGet r f).getD [])))).flatten =
        ((rowBody F :: R.map (fun r => rowBody (r.map Prod.snd))).map
          (fun l => l ++ ['\r', '\n'])).flatten := by
      rw [List.map_cons, List.flatten_cons, writeRow_eq_rowBody]
      congr 1
      rw [List.map_map]
      congr 1
      apply List.map_congr_left
      intro r hr
      simp only [Function.comp_apply]
      rw [hvals r hr, writeRow_eq_rowBody]
    have hFvfree : ∀ f ∈ F, ('\n' : Char) ∉ f ∧ ('\r' : Char) ∉ f := fun f hf =>
      ⟨fun hc => (hFchars f hf '\n' hc).2.2.1 rfl, fun hc => (hFchars f hf '\r' hc).2.2.2 rfl⟩
    have hLSfree : ∀ l ∈ (rowBody F :: R.map (fun r => rowBody (r.map Prod.snd))),
        ('\n' : Char) ∉ l ∧ ('\r' : Char) ∉ l := by
      intro l hl
      rcases List.mem_cons.mp hl with rfl | hl
      · exact rowBody_free F hFvfree
      · rw [List.mem_map] at hl
        obtain ⟨r, hr, rfl⟩ := hl
        apply rowBody_free
        intro v hv
        rw [List.mem_map] at hv
        obtain ⟨p, hp, rfl⟩ := hv
        exact hvfree r hr p hp
    have hquoteF : F.map csvQuoteMinimal = F := by
      have hcongr : F.map csvQuoteMinimal = F.map id :=
        List.map_congr_left (fun f hf => csvQuoteMinimal_plain f (hFchars f hf))
      rw [hcongr, List.map_id]
    have hheader : splitOnChar ',' (rowBody F) = F := by
      rw [rowBody, hquoteF]
      exact splitOnChar_intercalate ',' F hne (fun f hf hc => (hFchars f hf ',' hc).1 rfl)
    have hcond : ∀ i (hi : i < (R.map (fun r => rowBody (r.map Prod.snd))).length),
        trailingNum ((R.map (fun r => rowBody (r.map Prod.snd))).get ⟨i, hi⟩) =
          some (1 + i) := by
      intro i hi
      have hi2 : i < R.length := by simpa using hi
      have hbg : (R.map (fun r => rowBody (r.map Prod.snd))).get ⟨i, hi⟩ =
          rowBody ((R.get ⟨i, hi2⟩).map Prod.snd) := by
        simp only [List.get_eq_getElem, List.getElem_map]
      rw [hbg]
      obtain ⟨h1, h2, h3⟩ := hrow i hi2
      have hr : R.get ⟨i, hi2⟩ ∈ R := List.get_mem R i hi2
      rw [← hvals _ hr]
      rw [trailingNum_written_row F (R.get ⟨i, hi2⟩) (i + 1) hF hlast h1 h2 h3,
        Nat.add_comm]
    have hparse_each : ∀ r ∈ R, parse_single_record (rowBody (r.map Prod.snd)) F = some r := by
      intro r hr
      have hfree : ('\n' : Char) ∉ rowBody (r.map Prod.snd) := by
        refine (rowBody_free (r.map Prod.snd) ?_).1
        intro v hv
        rw [List.mem_map] at hv
        obtain ⟨p, hp, rfl⟩ := hv
        exact hvfree r hr p hp
      rw [parse_single_record_of_single_line _ F hfree]
      exact parse_single_line_record_roundtrip F r hF hnodup (hkeys r hr)
        (hvfree r hr) (hclean r hr)
    have hnilrec : List.filterMap (fun raw => parse_single_record raw F) [[]] = [] := by
      simp [parse_single_record_nil]
    rw [hout]
    simp only [parse_malformed_csv]
    rw [normalizeContent_crlf_lines _ hLSfree]
    rw [splitOnChar_flatten_nl _ (fun l hl => (hLSfree l hl).1)]
    rw [List.cons_append]
    simp only [List.headD_cons, List.drop_one, List.tail_cons]
    rw [hheader, scanLines, scanGo_all_close _ 1 hcond, List.filterMap_append, hnilrec,
      List.append_nil, List.filterMap_map,
      filterMap_eq_self R ((fun raw => parse_single_record raw F) ∘
        fun r => rowBody (List.map Prod.snd r)) (fun r hr => hparse_each r hr)]

/-- C6, counterexample to the claimed idempotence: on this malformed input
the first run extracts an episode narrative with a trailing space, the
writer emits it unquoted, and the second run's cleaner strips the space, so
re-running the transform on the output does not reproduce the records field
for field. -/
theorem claim_C6_counterexample :
    ((write_csv (parse_malformed_csv ("A,EVENT_NARRATIVE,EPISODE_NARRATIVE,ABSOLUTE_ROWNUMBER\nx,\"\",\"\nabc \"\",1").data).1
        (parse_malformed_csv ("A,EVENT_NARRATIVE,EPISODE_NARRATIVE,ABSOLUTE_ROWNUMBER\nx,\"\",\"\nabc \"\",1").data).2).map
      (fun out => (parse_malformed_csv out).2)) ≠
      some (parse_malformed_csv ("A,EVENT_NARRATIVE,EPISODE_NARRATIVE,ABSOLUTE_ROWNUMBER\nx,\"\",\"\nabc \"\",1").data).2 := by
  decide

/-- Witness for the amended C6 theorem at a concrete schema and a concrete
clean record: the written output parses back to exactly that record. -/
theorem claim_C6_amended_output_fixed_point_witness :
    ∃ out, write_csv ["A".data, eventNarrativeKey, episodeNarrativeKey, rowNumberKey]
        [[("A".data, "x".data), (eventNarrativeKey, []), (episodeNarrativeKey, "abc".data),
          (rowNumberKey, "1".data)]] = some out ∧
      parse_malformed_csv out =
        (["A".data, eventNarrativeKey, episodeNarrativeKey, rowNumberKey],
         [[("A".data, "x".data), (eventNarrativeKey, []), (episodeNarrativeKey, "abc".data),
           (rowNumberKey, "1".data)]]) :=
  claim_C6_amended_output_fixed_point _ _ (by decide) (by decide) (by decide) (by decide)
    (by decide) (by decide) (by decide) (by decide)

end StormCsv
